import Mathlib

/-!
Verification of the biologic preparation scheduler (`biologic_tracker.py`).

Modelling conventions:
* A calendar date is an `Int`, counting days from an epoch chosen to be a
  Monday, so `weekday d = d % 7` matches Python's `date.weekday()`
  (Monday = 0, ..., Sunday = 6).  `timedelta(days = n)` is plain integer
  addition.
* Volumes are `Nat` (the program's volumes are non-negative integers).
* A Python `dict` is an insertion-ordered association list; `setKey`
  overwrites the first occurrence of the key in place and appends a fresh
  key at the end, exactly like CPython dict assignment.
* `while` loops are embedded with an explicit fuel argument returning
  `Option`; a separate theorem shows the fuel supplied by the wrappers is
  always sufficient, so the wrappers never hit the `none` branch.
-/

namespace BiologicTracker

/-- An entry of the schedule: preparation name with a volume. -/
abbrev Entry := String × Nat

/-- A schedule: insertion-ordered map from dates to lists of entries. -/
abbrev Schedule := List (Int × List Entry)

/-- Lookup in an insertion-ordered association list (first match). -/
def lookupKey {ν : Type} (k : Int) : List (Int × ν) → Option ν
  | [] => none
  | kv :: rest => if kv.1 = k then some kv.2 else lookupKey k rest

/-- Lookup keyed by strings (used for the per-preparation aggregation maps). -/
def lookupStr {ν : Type} (k : String) : List (String × ν) → Option ν
  | [] => none
  | kv :: rest => if kv.1 = k then some kv.2 else lookupStr k rest

/-- Dict assignment `m[k] = v`: overwrite the first occurrence in place,
append at the end when the key is fresh. -/
def setKey {ν : Type} (k : Int) (v : ν) : List (Int × ν) → List (Int × ν)
  | [] => [(k, v)]
  | kv :: rest => if kv.1 = k then (k, v) :: rest else kv :: setKey k v rest

/-- Python's `date.weekday()` under the epoch-is-Monday convention. -/
def weekday (d : Int) : Int := d % 7

/-- `get_previous_weekday` from the source: Monday goes back 3 days,
Tuesday goes back 4 days, every other day goes back 2 days. -/
def get_previous_weekday (given_date : Int) : Int :=
  if weekday given_date = 0 then given_date - 3
  else if weekday given_date = 1 then given_date - 4
  else given_date - 2

/-- The `while total_volume > 0` loop of `distribute_volume`, with fuel. -/
def distLoop (prep : String) : Nat → Nat → List Entry
  | 0, _ => []
  | _ + 1, 0 => []
  | fuel + 1, total_volume =>
    if total_volume ≥ 500 then
      (prep, 500) :: distLoop prep fuel (total_volume - 500)
    else
      [(prep, total_volume)]

/-- `distribute_volume` from the source: split a total volume into batches
of at most 500.  Fuel `total_volume + 1` is enough because every loop
iteration strictly decreases the remaining volume. -/
def distribute_volume (prep : String) (total_volume : Nat) : List Entry :=
  distLoop prep (total_volume + 1) total_volume

/-- `get_working_days` from the source: all dates in `[start_date, end_date]`
whose weekday is Monday..Friday; an empty range yields the empty list. -/
def get_working_days (start_date end_date : Int) : List Int :=
  let total_days := (end_date - start_date + 1).toNat
  let all_dates := (List.range total_days).map (fun x : Nat => start_date + (x : Int))
  all_dates.filter (fun d => weekday d < 5)

/-- Metadata of one preparation (`prep_details[p]`): its type string and its
expiration window in days. -/
structure PrepInfo where
  type : String
  expiration : Nat

/-- The preparation-details map, embedded as a total function (the claims
only concern runs where every looked-up preparation is present). -/
abbrev PrepDetails := String → PrepInfo

/-- `find_available_days` from the source: keep a day when it is absent from
the schedule, or when it has fewer than 2 entries all of the queried type. -/
def find_available_days (schedule : Schedule) (current_type : String)
    (date_list : List Int) (prep_details : PrepDetails) : List Int :=
  match date_list with
  | [] => []
  | day :: rest =>
    match lookupKey day schedule with
    | none => day :: find_available_days schedule current_type rest prep_details
    | some entries =>
      if entries.length < 2 then
        if entries.all (fun e => (prep_details e.1).type = current_type) then
          day :: find_available_days schedule current_type rest prep_details
        else
          find_available_days schedule current_type rest prep_details
      else
        find_available_days schedule current_type rest prep_details

/-- The placement step of `optimize_schedule`:
`if not schedule.get(prod_day): schedule[prod_day] = []` followed by
`schedule[prod_day].append(e)` (a missing key and an empty list are both
falsy in Python, and both lead to the same append). -/
def appendEntryAt (prod_day : Int) (e : Entry) (schedule : Schedule) : Schedule :=
  let schedule1 :=
    if (lookupKey prod_day schedule).getD [] = [] then setKey prod_day [] schedule
    else schedule
  setKey prod_day ((lookupKey prod_day schedule1).getD [] ++ [e]) schedule1

/-- The `for batch in batches` loop of `optimize_schedule`: when the
candidate list is empty the batch is reported (preparation and volume) and
skipped, otherwise the last candidate day is popped and the batch appended
there.  Returns the updated schedule and the accumulated reports. -/
def placeBatches (prep : String) (batches : List Entry) (available_days : List Int)
    (schedule : Schedule) (reports : List Entry) : Schedule × List Entry :=
  match batches with
  | [] => (schedule, reports)
  | batch :: rest =>
    match available_days.getLast? with
    | none =>
      placeBatches prep rest available_days schedule (reports ++ [(prep, batch.2)])
    | some prod_day =>
      placeBatches prep rest available_days.dropLast
        (appendEntryAt prod_day (prep, batch.2) schedule) reports

/-- The body of `optimize_schedule` for one `(prep, volume)` requirement of a
task starting at `task_date`. -/
def schedulePrep (prep_details : PrepDetails) (task_date : Int) (prep : String)
    (volume : Nat) (schedule : Schedule) (reports : List Entry) :
    Schedule × List Entry :=
  let prep_type := (prep_details prep).type
  let expiration_delta := (prep_details prep).expiration
  let end_date := get_previous_weekday task_date
  let start_date := task_date - expiration_delta
  let batches := distribute_volume prep volume
  let working_days := get_working_days start_date end_date
  let available_days := find_available_days schedule prep_type working_days prep_details
  placeBatches prep batches available_days schedule reports

/-- `optimize_schedule` from the source, also returning the list of
unplaceable batches that the source merely prints (`tasks.get(task, [])` is
embedded as a total function already defaulting to `[]`).  The
`product_expirations` argument of the source is loaded but never consulted,
so it is omitted here. -/
def optimize_schedule (task_dates : List (String × Int))
    (tasks : String → List Entry) (prep_details : PrepDetails) :
    Schedule × List Entry :=
  task_dates.foldl
    (fun acc td =>
      (tasks td.1).foldl
        (fun acc2 pv => schedulePrep prep_details td.2 pv.1 pv.2 acc2.1 acc2.2)
        acc)
    ([], [])

/-- Aggregated data of one preparation in `consolidate_preps`
(`all_preps[prep]`). -/
structure AggInfo where
  total_volume : Nat
  type : String
  earliest_day : Int

/-- One aggregation step of `consolidate_preps`: initialise the entry when
the preparation is new, then add the volume and lower the earliest day.
(The source's init-then-update sequence on `all_preps[prep]` is fused into a
single traversal of the ordered map.) -/
def addAgg (prep_details : PrepDetails) (day : Int) (prep : String) (volume : Nat) :
    List (String × AggInfo) → List (String × AggInfo)
  | [] => [(prep, ⟨volume, (prep_details prep).type, day⟩)]
  | pa :: rest =>
    if pa.1 = prep then
      (pa.1, ⟨pa.2.total_volume + volume, pa.2.type,
              if day < pa.2.earliest_day then day else pa.2.earliest_day⟩) :: rest
    else
      pa :: addAgg prep_details day prep volume rest

/-- The `all_preps` aggregation loop of `consolidate_preps`, iterating the
schedule in insertion order. -/
def collectPreps (prep_details : PrepDetails) (schedule : Schedule) :
    List (String × AggInfo) :=
  schedule.foldl
    (fun acc dp => dp.2.foldl (fun acc2 e => addAgg prep_details dp.1 e.1 e.2 acc2) acc)
    []

/-- Total volume of the entries of one day that share the given type:
`sum(v for p, v in entries if prep_details[p]['type'] == t)`. -/
def sameTypeVolume (prep_details : PrepDetails) (t : String) (entries : List Entry) : Nat :=
  ((entries.filter (fun e => (prep_details e.1).type = t)).map Prod.snd).sum

/-- The `while volume_remaining > 0` loop of `consolidate_preps`, with fuel.
`maxV - current` is `Nat` subtraction, which agrees with the source's
`available_volume > 0` branch test in every case. -/
def loopA (prep_details : PrepDetails) (maxP maxV : Nat) (prep tp : String) :
    Nat → Nat → Int → Schedule → Option Schedule
  | _, 0, _, sched => some sched
  | 0, _ + 1, _, _ => none
  | fuel + 1, vr + 1, day, sched =>
    let volume_remaining := vr + 1
    let sched1 := if (lookupKey day sched).isNone then setKey day [] sched else sched
    let entries := (lookupKey day sched1).getD []
    let current_volume_on_day := sameTypeVolume prep_details tp entries
    let available_volume := maxV - current_volume_on_day
    if entries.length < maxP ∧ 0 < available_volume then
      let volume_to_add := min volume_remaining available_volume
      let sched2 := setKey day (entries ++ [(prep, volume_to_add)]) sched1
      let vr2 := volume_remaining - volume_to_add
      loopA prep_details maxP maxV prep tp fuel vr2
        (if 0 < vr2 then day + 1 else day) sched2
    else
      loopA prep_details maxP maxV prep tp fuel volume_remaining (day + 1) sched1

/-- Number of days of the schedule at or after `day`; together with the
remaining volume this bounds the iterations both placement loops can make. -/
def keysGE (day : Int) (s : Schedule) : Nat :=
  (s.filter (fun kv => day ≤ kv.1)).length

/-- Fuel that the termination theorem proves sufficient for both loops. -/
def loopFuel (vr : Nat) (day : Int) (s : Schedule) : Nat :=
  vr + keysGE day s + 1

/-- `consolidate_preps`, propagating a fuel failure through `Option`
(`consolidate_preps_total` below shows the failure never happens). -/
def consolidate_preps_opt (schedule : Schedule) (prep_details : PrepDetails)
    (max_preps_per_day max_volume_per_day : Nat) : Option Schedule :=
  (collectPreps prep_details schedule).foldlM
    (fun opt pa =>
      loopA prep_details max_preps_per_day max_volume_per_day pa.1 pa.2.type
        (loopFuel pa.2.total_volume pa.2.earliest_day opt)
        pa.2.total_volume pa.2.earliest_day opt)
    []

/-- `consolidate_preps` from the source (defaults are
`max_preps_per_day = 2`, `max_volume_per_day = 500`). -/
def consolidate_preps (schedule : Schedule) (prep_details : PrepDetails)
    (max_preps_per_day max_volume_per_day : Nat) : Schedule :=
  (consolidate_preps_opt schedule prep_details max_preps_per_day max_volume_per_day).getD []

/-- Aggregated data of one preparation in `consolidate_preps_with_constraints`
(`temp_storage[prep]`). -/
structure TempInfo where
  volume : Nat
  earliest_day : Int
  type : String

/-- One aggregation step of `consolidate_preps_with_constraints`, fusing the
source's init-then-update sequence on `temp_storage[prep]`. -/
def addTemp (prep_details : PrepDetails) (day : Int) (prep : String) (volume : Nat) :
    List (String × TempInfo) → List (String × TempInfo)
  | [] => [(prep, ⟨volume, day, (prep_details prep).type⟩)]
  | pa :: rest =>
    if pa.1 = prep then
      (pa.1, ⟨pa.2.volume + volume,
              if day < pa.2.earliest_day then day else pa.2.earliest_day, pa.2.type⟩) :: rest
    else
      pa :: addTemp prep_details day prep volume rest

/-- The `temp_storage` aggregation of `consolidate_preps_with_constraints`:
days are visited in sorted order (`sorted(schedule.keys())`). -/
def collectTemp (prep_details : PrepDetails) (schedule : Schedule) :
    List (String × TempInfo) :=
  let sorted_days := (schedule.map Prod.fst).insertionSort (· ≤ ·)
  sorted_days.foldl
    (fun acc day =>
      ((lookupKey day schedule).getD []).foldl
        (fun acc2 e => addTemp prep_details day e.1 e.2 acc2) acc)
    []

/-- The `while volume_remaining > 0` loop of
`consolidate_preps_with_constraints`, with fuel: place the whole remainder
and stop when it fits, otherwise place what fits (possibly nothing) and move
one calendar day forward. -/
def loopB (prep_details : PrepDetails) (maxP maxV : Nat) (prep tp : String) :
    Nat → Nat → Int → Schedule → Option Schedule
  | _, 0, _, sched => some sched
  | 0, _ + 1, _, _ => none
  | fuel + 1, vr + 1, day, sched =>
    let volume_remaining := vr + 1
    let sched1 := if (lookupKey day sched).isNone then setKey day [] sched else sched
    let entries := (lookupKey day sched1).getD []
    let current_volume := sameTypeVolume prep_details tp entries
    if entries.length < maxP ∧ current_volume + volume_remaining ≤ maxV then
      some (setKey day (entries ++ [(prep, volume_remaining)]) sched1)
    else
      let available_volume := min (maxV - current_volume) volume_remaining
      if 0 < available_volume ∧ entries.length < maxP then
        loopB prep_details maxP maxV prep tp fuel
          (volume_remaining - available_volume) (day + 1)
          (setKey day (entries ++ [(prep, available_volume)]) sched1)
      else
        loopB prep_details maxP maxV prep tp fuel volume_remaining (day + 1) sched1

/-- `consolidate_preps_with_constraints`, propagating a fuel failure through
`Option`. -/
def consolidate_preps_with_constraints_opt (schedule : Schedule)
    (prep_details : PrepDetails) (max_preps_per_day max_volume_per_day : Nat) :
    Option Schedule :=
  (collectTemp prep_details schedule).foldlM
    (fun opt pa =>
      loopB prep_details max_preps_per_day max_volume_per_day pa.1 pa.2.type
        (loopFuel pa.2.volume pa.2.earliest_day opt)
        pa.2.volume pa.2.earliest_day opt)
    []

/-- `consolidate_preps_with_constraints` from the source. -/
def consolidate_preps_with_constraints (schedule : Schedule)
    (prep_details : PrepDetails) (max_preps_per_day max_volume_per_day : Nat) :
    Schedule :=
  (consolidate_preps_with_constraints_opt schedule prep_details
      max_preps_per_day max_volume_per_day).getD []

/-- Total volume of the entries of one day that belong to preparation `q`. -/
def entVol (q : String) (l : List Entry) : Nat :=
  ((l.filter (fun e => e.1 = q)).map Prod.snd).sum

/-- Total volume scheduled for preparation `q` across all days. -/
def prepVolume (q : String) (s : Schedule) : Nat :=
  (s.map (fun dp => entVol q dp.2)).sum

/-- Total volume requested for preparation `q` across all tasks of the run. -/
def reqVolume (tasks : String → List Entry) (task_dates : List (String × Int))
    (q : String) : Nat :=
  (task_dates.map (fun td => entVol q (tasks td.1))).sum

/-- The per-day capacity invariant: at most `maxP` entries, and for every
type the same-type volume is at most `maxV`. -/
def dayOk (prep_details : PrepDetails) (maxP maxV : Nat) (entries : List Entry) : Prop :=
  entries.length ≤ maxP ∧ ∀ t, sameTypeVolume prep_details t entries ≤ maxV

/-- The schedule-wide capacity invariant. -/
def schedOk (prep_details : PrepDetails) (maxP maxV : Nat) (s : Schedule) : Prop :=
  ∀ dp ∈ s, dayOk prep_details maxP maxV dp.2

/-- Modelled from the spec (§4.4 step 6): place the batches one after the
other, each at the day paired with it.  Used to state that the scheduler
assigns the batches the latest-first days of the candidate list. -/
def placeBatchesSpec (prep : String) : List (Entry × Int) → Schedule → Schedule
  | [], s => s
  | bd :: rest, s => placeBatchesSpec prep rest (appendEntryAt bd.2 (prep, bd.1.2) s)

/-! ### Calendar utilities: claims C7 and C10 -/

/-- C7: `get_previous_weekday` goes back exactly 3 days from a Monday,
exactly 4 days from a Tuesday, and exactly 2 days from any other weekday. -/
theorem previous_weekday_cases (d : Int) :
    (weekday d = 0 → get_previous_weekday d = d - 3) ∧
    (weekday d = 1 → get_previous_weekday d = d - 4) ∧
    (weekday d ≠ 0 → weekday d ≠ 1 → get_previous_weekday d = d - 2) := by
  simp only [get_previous_weekday, weekday]
  refine ⟨fun h0 => ?_, fun h1 => ?_, fun h0 h1 => ?_⟩ <;> split_ifs <;> omega

theorem previous_weekday_cases_witness : get_previous_weekday 7 = 7 - 3 :=
  (previous_weekday_cases 7).1 (by decide)

/-- C10: the result of `get_previous_weekday` is strictly earlier than its
input and always lands on a weekday (Monday..Friday), even for weekend
inputs. -/
theorem previous_weekday_earlier_and_weekday (d : Int) :
    get_previous_weekday d < d ∧ weekday (get_previous_weekday d) < 5 := by
  simp only [get_previous_weekday, weekday]
  split_ifs with h0 h1 <;> constructor <;> omega

/-! ### Batch splitting: claim C8 -/

theorem distLoop_closed (prep : String) :
    ∀ fuel total, total < fuel →
      distLoop prep fuel total =
        List.replicate (total / 500) (prep, 500) ++
          (if total % 500 = 0 then [] else [(prep, total % 500)]) := by
  intro fuel
  induction fuel with
  | zero => intro total h; omega
  | succ fuel ih =>
    intro total h
    match total with
    | 0 => simp [distLoop]
    | t + 1 =>
      by_cases hge : t + 1 ≥ 500
      · have h1 : (t + 1) / 500 = (t + 1 - 500) / 500 + 1 := by omega
        have h2 : (t + 1) % 500 = (t + 1 - 500) % 500 := by omega
        have h3 : t + 1 - 500 < fuel := by omega
        simp only [distLoop, if_pos hge, ih _ h3, h1, h2, List.replicate_succ,
          List.cons_append]
      · have h1 : (t + 1) / 500 = 0 := by omega
        have h2 : (t + 1) % 500 = t + 1 := by omega
        simp [distLoop, hge, h1, h2]

/-- C8: `distribute_volume` emits `total / 500` full batches of 500 followed
by the positive remainder if any; volume 0 yields no batches, every batch is
at most 500, and the batch volumes sum to the requested total. -/
theorem distribute_volume_spec (prep : String) (total_volume : Nat) :
    distribute_volume prep total_volume =
      List.replicate (total_volume / 500) (prep, 500) ++
        (if total_volume % 500 = 0 then [] else [(prep, total_volume % 500)]) ∧
    (total_volume = 0 → distribute_volume prep total_volume = []) ∧
    ((distribute_volume prep total_volume).map Prod.snd).sum = total_volume ∧
    ∀ b ∈ distribute_volume prep total_volume, b.2 ≤ 500 := by
  have hc := distLoop_closed prep (total_volume + 1) total_volume (Nat.lt_succ_self _)
  have heq : distribute_volume prep total_volume =
      List.replicate (total_volume / 500) (prep, 500) ++
        (if total_volume % 500 = 0 then [] else [(prep, total_volume % 500)]) := hc
  refine ⟨heq, ?_, ?_, ?_⟩
  · intro h; subst h; simp [heq]
  · rw [heq]
    by_cases hmod : total_volume % 500 = 0 <;>
      simp [hmod, List.sum_replicate, smul_eq_mul] <;> omega
  · intro b hb
    rw [heq] at hb
    rcases List.mem_append.mp hb with hb | hb
    · rw [List.eq_of_mem_replicate hb]
    · by_cases hmod : total_volume % 500 = 0 <;> simp [hmod] at hb
      subst hb
      simp only []
      omega

theorem distribute_volume_spec_witness :
    ("X", (300 : Nat)) ∈ distribute_volume "X" 1300 ∧ (("X", (300 : Nat)) : Entry).2 ≤ 500 :=
  ⟨by decide, (distribute_volume_spec "X" 1300).2.2.2 ("X", 300) (by decide)⟩

/-! ### Basic lemmas about the ordered-dict operations -/

theorem lookupKey_setKey_self {ν : Type} (k : Int) (v : ν) (s : List (Int × ν)) :
    lookupKey k (setKey k v s) = some v := by
  induction s with
  | nil => simp [setKey, lookupKey]
  | cons kv rest ih =>
    by_cases h : kv.1 = k <;> simp [setKey, lookupKey, h, ih]

theorem lookupKey_setKey_ne {ν : Type} {k k' : Int} (h : k' ≠ k) (v : ν)
    (s : List (Int × ν)) : lookupKey k' (setKey k v s) = lookupKey k' s := by
  have hne : ¬ (k = k') := fun h' => h h'.symm
  induction s with
  | nil => simp [setKey, lookupKey, hne]
  | cons kv rest ih =>
    by_cases hk : kv.1 = k
    · have hk' : ¬ (kv.1 = k') := by rw [hk]; exact hne
      simp [setKey, hk, lookupKey, hne, hk']
    · simp only [setKey, if_neg hk, lookupKey]
      by_cases hk' : kv.1 = k' <;> simp [hk', ih]

theorem lookupKey_eq_none_iff {ν : Type} (k : Int) (s : List (Int × ν)) :
    lookupKey k s = none ↔ k ∉ s.map Prod.fst := by
  induction s with
  | nil => simp [lookupKey]
  | cons kv rest ih =>
    simp only [List.map_cons, List.mem_cons]
    by_cases h : kv.1 = k
    · simp [lookupKey, h]
    · simp only [lookupKey, if_neg h, ih]
      constructor
      · intro hnone
        rw [not_or]
        exact ⟨fun h1 => h h1.symm, hnone⟩
      · intro hnot
        exact fun hmem => hnot (Or.inr hmem)

theorem setKey_of_lookup_none {ν : Type} {k : Int} {s : List (Int × ν)}
    (h : lookupKey k s = none) (v : ν) : setKey k v s = s ++ [(k, v)] := by
  induction s with
  | nil => simp [setKey]
  | cons kv rest ih =>
    by_cases hk : kv.1 = k
    · simp [lookupKey, hk] at h
    · simp only [lookupKey, if_neg hk] at h
      simp [setKey, hk, ih h]

theorem keys_setKey_some {ν : Type} {k : Int} {s : List (Int × ν)} {l : ν}
    (h : lookupKey k s = some l) (v : ν) :
    (setKey k v s).map Prod.fst = s.map Prod.fst := by
  induction s with
  | nil => simp [lookupKey] at h
  | cons kv rest ih =>
    by_cases hk : kv.1 = k
    · simp [setKey, hk]
    · simp only [lookupKey, if_neg hk] at h
      simp [setKey, hk, ih h]

/-! ### Volume bookkeeping lemmas -/

theorem entVol_append (q : String) (l1 l2 : List Entry) :
    entVol q (l1 ++ l2) = entVol q l1 + entVol q l2 := by
  simp [entVol, List.filter_append]

theorem entVol_single (q : String) (e : Entry) :
    entVol q [e] = if e.1 = q then e.2 else 0 := by
  by_cases h : e.1 = q <;> simp [entVol, h]

theorem entVol_nil (q : String) : entVol q [] = 0 := by simp [entVol]

theorem prepVolume_append (q : String) (s1 s2 : Schedule) :
    prepVolume q (s1 ++ s2) = prepVolume q s1 + prepVolume q s2 := by
  simp [prepVolume]

theorem prepVolume_setKey_none {d : Int} {s : Schedule}
    (h : lookupKey d s = none) (q : String) (v : List Entry) :
    prepVolume q (setKey d v s) = prepVolume q s + entVol q v := by
  rw [setKey_of_lookup_none h, prepVolume_append]
  simp [prepVolume]

theorem prepVolume_setKey_some {d : Int} {s : Schedule} {l : List Entry}
    (h : lookupKey d s = some l) (q : String) (v : List Entry) :
    prepVolume q (setKey d v s) + entVol q l = prepVolume q s + entVol q v := by
  induction s with
  | nil => simp [lookupKey] at h
  | cons kv rest ih =>
    by_cases hk : kv.1 = d
    · simp only [lookupKey, if_pos hk] at h
      obtain rfl : kv.2 = l := by injection h
      simp [setKey, hk, prepVolume]
      ring
    · simp only [lookupKey, if_neg hk] at h
      simp only [setKey, if_neg hk]
      have := ih h
      simp only [prepVolume, List.map_cons, List.sum_cons] at this ⊢
      omega

theorem sameTypeVolume_append (prep_details : PrepDetails) (t : String)
    (l : List Entry) (e : Entry) :
    sameTypeVolume prep_details t (l ++ [e]) =
      sameTypeVolume prep_details t l +
        (if (prep_details e.1).type = t then e.2 else 0) := by
  by_cases h : (prep_details e.1).type = t <;>
    simp [sameTypeVolume, List.filter_append, h]

theorem sameTypeVolume_nil (prep_details : PrepDetails) (t : String) :
    sameTypeVolume prep_details t [] = 0 := by simp [sameTypeVolume]

/-! ### Lemmas about the iteration measure `keysGE` -/

theorem keysGE_eq_countP (day : Int) (s : Schedule) :
    keysGE day s = s.countP (fun kv => day ≤ kv.1) := by
  induction s with
  | nil => simp [keysGE]
  | cons kv rest ih =>
    simp only [keysGE, List.filter_cons, List.countP_cons] at *
    by_cases h : day ≤ kv.1 <;> simp [h, ih]

theorem keysGE_setKey_lt {d d' : Int} (hdd : d < d') (v : List Entry) (s : Schedule) :
    keysGE d' (setKey d v s) = keysGE d' s := by
  have hnle : ¬ (d' ≤ d) := by omega
  induction s with
  | nil => simp [setKey, keysGE, List.filter_cons, hnle]
  | cons kv rest ih =>
    by_cases hk : kv.1 = d
    · have hk' : ¬ (d' ≤ kv.1) := by rw [hk]; exact hnle
      simp [setKey, hk, keysGE, List.filter_cons, hnle, hk']
    · simp only [setKey, if_neg hk, keysGE, List.filter_cons] at *
      by_cases hle : d' ≤ kv.1 <;> simp [hle, ih]

theorem keysGE_append (day : Int) (s1 s2 : Schedule) :
    keysGE day (s1 ++ s2) = keysGE day s1 + keysGE day s2 := by
  simp [keysGE_eq_countP, List.countP_append]

theorem keysGE_setKey_some {k : Int} {s : Schedule} {l : List Entry}
    (h : lookupKey k s = some l) (day : Int) (v : List Entry) :
    keysGE day (setKey k v s) = keysGE day s := by
  induction s with
  | nil => simp [lookupKey] at h
  | cons kv rest ih =>
    by_cases hk : kv.1 = k
    · simp only [setKey, if_pos hk, keysGE_eq_countP, List.countP_cons]
      rw [hk]
    · simp only [lookupKey, if_neg hk] at h
      simp only [setKey, if_neg hk, keysGE_eq_countP, List.countP_cons] at *
      rw [ih h]

theorem keysGE_succ_le (day : Int) (s : Schedule) :
    keysGE (day + 1) s ≤ keysGE day s := by
  rw [keysGE_eq_countP, keysGE_eq_countP]
  refine List.countP_mono_left ?_
  intro kv _ h
  simp only [decide_eq_true_eq] at *
  omega

theorem keysGE_succ_lt {day : Int} {s : Schedule} {l : List Entry}
    (h : lookupKey day s = some l) : keysGE (day + 1) s < keysGE day s := by
  induction s with
  | nil => simp [lookupKey] at h
  | cons kv rest ih =>
    simp only [keysGE_eq_countP, List.countP_cons] at *
    by_cases hk : kv.1 = day
    · have h1 : ¬ (day + 1 ≤ kv.1) := by omega
      have h2 : day ≤ kv.1 := by omega
      have hle := keysGE_succ_le day rest
      rw [keysGE_eq_countP, keysGE_eq_countP] at hle
      simp [h1, h2]
      omega
    · simp only [lookupKey, if_neg hk] at h
      have := ih h
      by_cases h1 : day + 1 ≤ kv.1
      · have h2 : day ≤ kv.1 := by omega
        simp [h1, h2]; omega
      · by_cases h2 : day ≤ kv.1 <;> simp [h1, h2] <;> omega

/-! ### Day availability: claim C4 -/

/-- The availability test of the spec, as a Boolean predicate on one day. -/
def availablePred (schedule : Schedule) (current_type : String)
    (prep_details : PrepDetails) (day : Int) : Bool :=
  match lookupKey day schedule with
  | none => true
  | some entries =>
    entries.length < 2 && entries.all (fun e => (prep_details e.1).type = current_type)

/-- C4: `find_available_days` returns exactly the candidate days, in input
order, that are absent from the schedule or hold fewer than 2 entries all of
the queried type; a full or cross-typed day is never returned, and the
function is a pure query (it returns a filtered copy of the candidate list
and leaves the schedule value untouched). -/
theorem find_available_days_spec (schedule : Schedule) (current_type : String)
    (date_list : List Int) (prep_details : PrepDetails) :
    find_available_days schedule current_type date_list prep_details =
      date_list.filter (availablePred schedule current_type prep_details) ∧
    (find_available_days schedule current_type date_list prep_details).Sublist date_list ∧
    ∀ day ∈ find_available_days schedule current_type date_list prep_details,
      ∀ l, lookupKey day schedule = some l →
        l.length < 2 ∧ ∀ e ∈ l, (prep_details e.1).type = current_type := by
  have heq : find_available_days schedule current_type date_list prep_details =
      date_list.filter (availablePred schedule current_type prep_details) := by
    induction date_list with
    | nil => simp [find_available_days]
    | cons day rest ih =>
      simp only [find_available_days, List.filter, availablePred]
      cases h : lookupKey day schedule with
      | none => simp [ih]
      | some entries =>
        by_cases h2 : entries.length < 2
        · by_cases h3 : entries.all (fun e => (prep_details e.1).type = current_type) <;>
            simp [h2, h3, ih]
        · simp [h2, ih]
  refine ⟨heq, ?_, ?_⟩
  · rw [heq]; exact List.filter_sublist date_list
  · intro day hday l hl
    rw [heq] at hday
    have hpred := List.of_mem_filter hday
    simp only [availablePred, hl] at hpred
    simp only [Bool.and_eq_true, decide_eq_true_eq, List.all_eq_true] at hpred
    exact ⟨hpred.1, fun e he => hpred.2 e he⟩

theorem find_available_days_spec_witness :
    (22 : Int) ∈ find_available_days [(22, [("prepM1", 100)]), (23, [("prepB1", 200)])]
        "media" [22, 23, 24]
        (fun p => if p = "prepB1" then ⟨"buffer", 1⟩ else ⟨"media", 1⟩) ∧
    ∀ l, lookupKey 22 [((22 : Int), [("prepM1", (100 : Nat))]), (23, [("prepB1", 200)])] = some l →
      l.length < 2 := by
  refine ⟨by decide, fun l hl => ?_⟩
  exact ((find_available_days_spec [(22, [("prepM1", 100)]), (23, [("prepB1", 200)])]
    "media" [22, 23, 24]
    (fun p => if p = "prepB1" then ⟨"buffer", 1⟩ else ⟨"media", 1⟩)).2.2
    22 (by decide) l hl).1

/-! ### Unplaceable batches: claim C6 -/

/-- C6: once the candidate list is empty, every remaining batch of the
preparation is reported with the preparation identifier and the batch
volume, the schedule is left exactly as it was, and the loop keeps running
over the remaining batches (and, being a total function, the surrounding
run over preparations and tasks continues). -/
theorem placeBatches_no_available (prep : String) (batches : List Entry)
    (schedule : Schedule) (reports : List Entry) :
    placeBatches prep batches [] schedule reports =
      (schedule, reports ++ batches.map (fun b => (prep, b.2))) := by
  induction batches generalizing reports with
  | nil => simp [placeBatches]
  | cons b rest ih =>
    simp [placeBatches, ih, List.append_assoc]

/-! ### Latest-day placement: claim C3 -/

theorem placeBatches_pop (prep : String) :
    ∀ (batches : List Entry) (avail : List Int) (s : Schedule) (r : List Entry),
      batches.length ≤ avail.length →
      placeBatches prep batches avail s r =
        (placeBatchesSpec prep (batches.zip avail.reverse) s, r) := by
  intro batches
  induction batches with
  | nil => intro avail s r _; simp [placeBatches, placeBatchesSpec]
  | cons b rest ih =>
    intro avail s r hlen
    rcases List.eq_nil_or_concat avail with rfl | ⟨as, y, rfl⟩
    · simp at hlen
    · simp only [List.concat_eq_append] at hlen ⊢
      have hget : (as ++ [y]).getLast? = some y := by
        simp [List.getLast?_append]
      have hdrop : (as ++ [y]).dropLast = as := by
        simp
      have hrev : (as ++ [y]).reverse = y :: as.reverse := by
        simp
      have hlen' : rest.length ≤ as.length := by
        simp at hlen; omega
      simp only [placeBatches, hget, hdrop, hrev, List.zip_cons_cons,
        placeBatchesSpec, ih as _ r hlen']

theorem get_working_days_sorted (start_date end_date : Int) :
    (get_working_days start_date end_date).Pairwise (· < ·) := by
  refine List.Pairwise.filter _ ?_
  rw [List.pairwise_map]
  exact (List.pairwise_lt_range _).imp (fun h => by omega)

/-- C3: with metadata present and enough candidate days, the per-preparation
step of the Initial Scheduler places the batches produced by the splitter one
by one, each on the latest not-yet-used day of the candidate list computed by
`find_available_days` over the business days of
`[task start − expiration window, previous_safe_day(task start)]`; the days
assigned to successive batches are pairwise distinct and strictly
decreasing. -/
theorem schedulePrep_places_latest (prep_details : PrepDetails) (task_date : Int)
    (prep : String) (volume : Nat) (schedule : Schedule) (reports : List Entry)
    (hlen : (distribute_volume prep volume).length ≤
      (find_available_days schedule (prep_details prep).type
        (get_working_days (task_date - (prep_details prep).expiration)
          (get_previous_weekday task_date)) prep_details).length) :
    schedulePrep prep_details task_date prep volume schedule reports =
      (placeBatchesSpec prep
        ((distribute_volume prep volume).zip
          (find_available_days schedule (prep_details prep).type
            (get_working_days (task_date - (prep_details prep).expiration)
              (get_previous_weekday task_date)) prep_details).reverse)
        schedule, reports) ∧
    ((find_available_days schedule (prep_details prep).type
        (get_working_days (task_date - (prep_details prep).expiration)
          (get_previous_weekday task_date)) prep_details).reverse.take
      (distribute_volume prep volume).length).Pairwise (· > ·) := by
  constructor
  · exact placeBatches_pop prep _ _ schedule reports hlen
  · have hsub := (find_available_days_spec schedule (prep_details prep).type
      (get_working_days (task_date - (prep_details prep).expiration)
        (get_previous_weekday task_date)) prep_details).2.1
    have hsorted : (find_available_days schedule (prep_details prep).type
        (get_working_days (task_date - (prep_details prep).expiration)
          (get_previous_weekday task_date)) prep_details).Pairwise (· < ·) :=
      (get_working_days_sorted _ _).sublist hsub
    have hrev : (find_available_days schedule (prep_details prep).type
        (get_working_days (task_date - (prep_details prep).expiration)
          (get_previous_weekday task_date)) prep_details).reverse.Pairwise (· > ·) := by
      rw [List.pairwise_reverse]
      exact hsorted
    exact hrev.sublist (List.take_sublist _ _)

/-- Fixed metadata used by concrete witnesses: everything is a Media
preparation with a 3-day expiration window. -/
def pdWitness : PrepDetails := fun _ => ⟨"Media", 3⟩

theorem schedulePrep_places_latest_witness :
    (distribute_volume "P" 100).length ≤
      (find_available_days [] (pdWitness "P").type
        (get_working_days (2 - (pdWitness "P").expiration)
          (get_previous_weekday 2)) pdWitness).length ∧
    schedulePrep pdWitness 2 "P" 100 [] [] =
      (placeBatchesSpec "P"
        ((distribute_volume "P" 100).zip
          (find_available_days [] (pdWitness "P").type
            (get_working_days (2 - (pdWitness "P").expiration)
              (get_previous_weekday 2)) pdWitness).reverse)
        [], []) :=
  ⟨by decide, (schedulePrep_places_latest pdWitness 2 "P" 100 [] [] (by decide)).1⟩

/-! ### Membership lemmas used by the loop invariants -/

theorem lookupKey_mem {ν : Type} {k : Int} {v : ν} {s : List (Int × ν)}
    (h : lookupKey k s = some v) : (k, v) ∈ s := by
  induction s with
  | nil => simp [lookupKey] at h
  | cons kv rest ih =>
    by_cases hk : kv.1 = k
    · simp only [lookupKey, if_pos hk] at h
      obtain rfl : kv.2 = v := by injection h
      have hkv : (k, kv.2) = kv := by
        rw [← hk]
      rw [hkv]
      exact List.mem_cons_self _ _
    · simp only [lookupKey, if_neg hk] at h
      exact List.mem_cons_of_mem _ (ih h)

theorem mem_setKey {ν : Type} {k : Int} {v : ν} {s : List (Int × ν)} {dp : Int × ν}
    (h : dp ∈ setKey k v s) : dp ∈ s ∨ dp = (k, v) := by
  induction s with
  | nil => simpa [setKey] using h
  | cons kv rest ih =>
    by_cases hk : kv.1 = k
    · simp only [setKey, if_pos hk, List.mem_cons] at h
      rcases h with h | h
      · right; exact h
      · left; exact List.mem_cons_of_mem _ h
    · simp only [setKey, if_neg hk, List.mem_cons] at h
      rcases h with h | h
      · left; exact h ▸ List.mem_cons_self _ _
      · rcases ih h with h' | h'
        · left; exact List.mem_cons_of_mem _ h'
        · right; exact h'

/-! ### Termination of the Pass A placement loop -/

theorem loopA_zero (prep_details : PrepDetails) (maxP maxV : Nat) (prep tp : String)
    (fuel : Nat) (day : Int) (sched : Schedule) :
    loopA prep_details maxP maxV prep tp fuel 0 day sched = some sched := by
  cases fuel <;> rfl

theorem loopA_isSome (prep_details : PrepDetails) {maxP maxV : Nat} (prep tp : String)
    (hP : 0 < maxP) (hV : 0 < maxV) :
    ∀ (fuel vr : Nat) (day : Int) (sched : Schedule),
      vr + keysGE day sched + 1 ≤ fuel →
      (loopA prep_details maxP maxV prep tp fuel vr day sched).isSome := by
  intro fuel
  induction fuel with
  | zero => intro vr day sched h; omega
  | succ fuel ih =>
    intro vr day sched hbound
    match vr with
    | 0 => simp [loopA_zero]
    | v + 1 =>
      have key : ∀ (vr2 : Nat) (sched2 : Schedule),
          vr2 ≤ v →
          keysGE (day + 1) sched2 ≤ keysGE day sched →
          (loopA prep_details maxP maxV prep tp fuel vr2
            (if 0 < vr2 then day + 1 else day) sched2).isSome := by
        intro vr2 sched2 hv hk2
        by_cases h0 : 0 < vr2
        · rw [if_pos h0]
          apply ih
          omega
        · have hz : vr2 = 0 := by omega
          rw [hz]
          simp [loopA_zero]
      cases hlk : lookupKey day sched with
      | none =>
        -- a fresh day always accepts volume when both limits are positive
        have hlk1 : lookupKey day (setKey day [] sched) = some [] :=
          lookupKey_setKey_self day [] sched
        have hs1 : (if (lookupKey day sched).isNone then setKey day [] sched else sched) =
            setKey day [] sched := by
          rw [hlk]
          rfl
        have hguard : ([] : List Entry).length < maxP ∧
            0 < maxV - sameTypeVolume prep_details tp [] := by
          constructor
          · simpa using hP
          · simp [sameTypeVolume_nil]; omega
        simp only [loopA, hs1, hlk1, Option.getD_some]
        rw [if_pos hguard]
        rcases hguard with ⟨-, hg2⟩
        apply key
        · omega
        · rw [keysGE_setKey_lt (by omega), keysGE_setKey_lt (by omega)]
          exact keysGE_succ_le day sched
      | some l =>
        have hs1 : (if (lookupKey day sched).isNone then setKey day [] sched else sched) =
            sched := by
          rw [hlk]
          rfl
        simp only [loopA]
        rw [hs1, hlk]
        simp only [Option.getD_some]
        by_cases hguard : l.length < maxP ∧ 0 < maxV - sameTypeVolume prep_details tp l
        · rw [if_pos hguard]
          rcases hguard with ⟨-, hg2⟩
          apply key
          · omega
          · rw [keysGE_setKey_lt (by omega)]
            exact keysGE_succ_le day sched
        · rw [if_neg hguard]
          apply ih
          have h2 := keysGE_succ_lt hlk
          omega

/-! ### Termination of the Pass B placement loop -/

theorem loopB_zero (prep_details : PrepDetails) (maxP maxV : Nat) (prep tp : String)
    (fuel : Nat) (day : Int) (sched : Schedule) :
    loopB prep_details maxP maxV prep tp fuel 0 day sched = some sched := by
  cases fuel <;> rfl

theorem loopB_isSome (prep_details : PrepDetails) {maxP maxV : Nat} (prep tp : String)
    (hP : 0 < maxP) (hV : 0 < maxV) :
    ∀ (fuel vr : Nat) (day : Int) (sched : Schedule),
      vr + keysGE day sched + 1 ≤ fuel →
      (loopB prep_details maxP maxV prep tp fuel vr day sched).isSome := by
  intro fuel
  induction fuel with
  | zero => intro vr day sched h; omega
  | succ fuel ih =>
    intro vr day sched hbound
    match vr with
    | 0 => simp [loopB_zero]
    | v + 1 =>
      have key : ∀ (vr2 : Nat) (sched2 : Schedule),
          vr2 ≤ v →
          keysGE (day + 1) sched2 ≤ keysGE day sched →
          (loopB prep_details maxP maxV prep tp fuel vr2 (day + 1) sched2).isSome := by
        intro vr2 sched2 hv hk2
        apply ih
        omega
      cases hlk : lookupKey day sched with
      | none =>
        -- a fresh day always accepts volume when both limits are positive
        have hlk1 : lookupKey day (setKey day [] sched) = some [] :=
          lookupKey_setKey_self day [] sched
        have hs1 : (if (lookupKey day sched).isNone then setKey day [] sched else sched) =
            setKey day [] sched := by
          rw [hlk]
          rfl
        simp only [loopB, hs1, hlk1, Option.getD_some]
        by_cases hg1 : ([] : List Entry).length < maxP ∧
            sameTypeVolume prep_details tp [] + (v + 1) ≤ maxV
        · rw [if_pos hg1]
          simp
        · rw [if_neg hg1]
          have hstv : sameTypeVolume prep_details tp [] = 0 := sameTypeVolume_nil _ _
          have hg2 : 0 < min (maxV - sameTypeVolume prep_details tp []) (v + 1) ∧
              ([] : List Entry).length < maxP := by
            constructor
            · omega
            · simpa using hP
          rw [if_pos hg2]
          have hmin := hg2.1
          apply key
          · omega
          · rw [keysGE_setKey_lt (by omega), keysGE_setKey_lt (by omega)]
            exact keysGE_succ_le day sched
      | some l =>
        have hs1 : (if (lookupKey day sched).isNone then setKey day [] sched else sched) =
            sched := by
          rw [hlk]
          rfl
        simp only [loopB]
        rw [hs1, hlk]
        simp only [Option.getD_some]
        by_cases hg1 : l.length < maxP ∧ sameTypeVolume prep_details tp l + (v + 1) ≤ maxV
        · rw [if_pos hg1]
          simp
        · rw [if_neg hg1]
          by_cases hg2 : 0 < min (maxV - sameTypeVolume prep_details tp l) (v + 1) ∧
              l.length < maxP
          · rw [if_pos hg2]
            have hmin := hg2.1
            apply key
            · omega
            · rw [keysGE_setKey_lt (by omega)]
              exact keysGE_succ_le day sched
          · rw [if_neg hg2]
            apply ih
            have h2 := keysGE_succ_lt hlk
            omega

theorem foldLoopA_isSome (prep_details : PrepDetails) (maxP maxV : Nat)
    (hP : 0 < maxP) (hV : 0 < maxV) :
    ∀ (l : List (String × AggInfo)) (init : Schedule),
      (l.foldlM
        (fun opt pa =>
          loopA prep_details maxP maxV pa.1 pa.2.type
            (loopFuel pa.2.total_volume pa.2.earliest_day opt)
            pa.2.total_volume pa.2.earliest_day opt)
        init).isSome := by
  intro l
  induction l with
  | nil => intro init; simp
  | cons pa rest ih =>
    intro init
    rw [List.foldlM_cons]
    have h1 := loopA_isSome prep_details pa.1 pa.2.type hP hV
      (loopFuel pa.2.total_volume pa.2.earliest_day init)
      pa.2.total_volume pa.2.earliest_day init (Nat.le_refl _)
    rcases Option.isSome_iff_exists.mp h1 with ⟨s1, hs1⟩
    rw [hs1]
    exact ih s1

theorem foldLoopB_isSome (prep_details : PrepDetails) (maxP maxV : Nat)
    (hP : 0 < maxP) (hV : 0 < maxV) :
    ∀ (l : List (String × TempInfo)) (init : Schedule),
      (l.foldlM
        (fun opt pa =>
          loopB prep_details maxP maxV pa.1 pa.2.type
            (loopFuel pa.2.volume pa.2.earliest_day opt)
            pa.2.volume pa.2.earliest_day opt)
        init).isSome := by
  intro l
  induction l with
  | nil => intro init; simp
  | cons pa rest ih =>
    intro init
    rw [List.foldlM_cons]
    have h1 := loopB_isSome prep_details pa.1 pa.2.type hP hV
      (loopFuel pa.2.volume pa.2.earliest_day init)
      pa.2.volume pa.2.earliest_day init (Nat.le_refl _)
    rcases Option.isSome_iff_exists.mp h1 with ⟨s1, hs1⟩
    rw [hs1]
    exact ih s1

/-- C9: on every finite input schedule — over-capacity ones included — both
consolidation passes run their placement loops to completion (the fuelled
loops never exhaust the supplied fuel) and produce a complete output
schedule. -/
theorem consolidation_passes_terminate (schedule : Schedule)
    (prep_details : PrepDetails) :
    (consolidate_preps_opt schedule prep_details 2 500).isSome ∧
    consolidate_preps_opt schedule prep_details 2 500 =
      some (consolidate_preps schedule prep_details 2 500) ∧
    (consolidate_preps_with_constraints_opt schedule prep_details 2 500).isSome ∧
    consolidate_preps_with_constraints_opt schedule prep_details 2 500 =
      some (consolidate_preps_with_constraints schedule prep_details 2 500) := by
  have hA : (consolidate_preps_opt schedule prep_details 2 500).isSome :=
    foldLoopA_isSome prep_details 2 500 (by omega) (by omega) _ _
  have hB : (consolidate_preps_with_constraints_opt schedule prep_details 2 500).isSome :=
    foldLoopB_isSome prep_details 2 500 (by omega) (by omega) _ _
  refine ⟨hA, ?_, hB, ?_⟩
  · rcases Option.isSome_iff_exists.mp hA with ⟨s1, hs1⟩
    rw [consolidate_preps, hs1]
    rfl
  · rcases Option.isSome_iff_exists.mp hB with ⟨s1, hs1⟩
    rw [consolidate_preps_with_constraints, hs1]
    rfl

/-! ### Volume conservation of the placement loops -/

theorem entVol_cons (q : String) (e : Entry) (l : List Entry) :
    entVol q (e :: l) = (if e.1 = q then e.2 else 0) + entVol q l := by
  by_cases h : e.1 = q <;> simp [entVol, List.filter_cons, h]

theorem loopA_prepVolume (prep_details : PrepDetails) (maxP maxV : Nat)
    (prep tp : String) :
    ∀ (fuel vr : Nat) (day : Int) (sched out : Schedule),
      loopA prep_details maxP maxV prep tp fuel vr day sched = some out →
      ∀ q, prepVolume q out = prepVolume q sched + (if prep = q then vr else 0) := by
  intro fuel
  induction fuel with
  | zero =>
    intro vr day sched out h q
    cases vr with
    | zero =>
      obtain rfl : sched = out := by simpa [loopA] using h
      simp
    | succ v => simp [loopA] at h
  | succ fuel ih =>
    intro vr day sched out h q
    cases vr with
    | zero =>
      obtain rfl : sched = out := by simpa [loopA_zero] using h
      simp
    | succ v =>
      cases hlk : lookupKey day sched with
      | none =>
        have hlk1 : lookupKey day (setKey day [] sched) = some [] :=
          lookupKey_setKey_self day [] sched
        have hs1 : (if (lookupKey day sched).isNone then setKey day [] sched else sched) =
            setKey day [] sched := by
          rw [hlk]
          rfl
        simp only [loopA] at h
        rw [hs1, hlk1] at h
        simp only [Option.getD_some] at h
        have e1 : prepVolume q (setKey day [] sched) = prepVolume q sched := by
          rw [prepVolume_setKey_none hlk]
          simp [entVol_nil]
        by_cases hg : ([] : List Entry).length < maxP ∧
            0 < maxV - sameTypeVolume prep_details tp []
        · rw [if_pos hg] at h
          have hout := ih _ _ _ _ h q
          have e2 := prepVolume_setKey_some hlk1 q
            ([] ++ [(prep, min (v + 1) (maxV - sameTypeVolume prep_details tp []))])
          have e3 : entVol q
              ([] ++ [(prep, min (v + 1) (maxV - sameTypeVolume prep_details tp []))]) =
              if prep = q then min (v + 1) (maxV - sameTypeVolume prep_details tp [])
              else 0 := by
            simp [entVol_cons, entVol_nil]
          have hmin : min (v + 1) (maxV - sameTypeVolume prep_details tp []) ≤ v + 1 :=
            Nat.min_le_left _ _
          rw [entVol_nil, Nat.add_zero, e1, e3] at e2
          rw [hout]
          by_cases hq : prep = q <;> simp [hq] at e2 ⊢ <;> omega
        · rw [if_neg hg] at h
          have hout := ih _ _ _ _ h q
          rw [hout, e1]
      | some l =>
        have hs1 : (if (lookupKey day sched).isNone then setKey day [] sched else sched) =
            sched := by
          rw [hlk]
          rfl
        simp only [loopA] at h
        rw [hs1, hlk] at h
        simp only [Option.getD_some] at h
        by_cases hg : l.length < maxP ∧ 0 < maxV - sameTypeVolume prep_details tp l
        · rw [if_pos hg] at h
          have hout := ih _ _ _ _ h q
          have e2 := prepVolume_setKey_some hlk q
            (l ++ [(prep, min (v + 1) (maxV - sameTypeVolume prep_details tp l))])
          have e3 : entVol q
              (l ++ [(prep, min (v + 1) (maxV - sameTypeVolume prep_details tp l))]) =
              entVol q l +
                (if prep = q then min (v + 1) (maxV - sameTypeVolume prep_details tp l)
                 else 0) := by
            rw [entVol_append]
            simp [entVol_cons, entVol_nil]
          have hmin : min (v + 1) (maxV - sameTypeVolume prep_details tp l) ≤ v + 1 :=
            Nat.min_le_left _ _
          rw [e3] at e2
          rw [hout]
          by_cases hq : prep = q <;> simp [hq] at e2 ⊢ <;> omega
        · rw [if_neg hg] at h
          exact ih _ _ _ _ h q

theorem loopB_prepVolume (prep_details : PrepDetails) (maxP maxV : Nat)
    (prep tp : String) :
    ∀ (fuel vr : Nat) (day : Int) (sched out : Schedule),
      loopB prep_details maxP maxV prep tp fuel vr day sched = some out →
      ∀ q, prepVolume q out = prepVolume q sched + (if prep = q then vr else 0) := by
  intro fuel
  induction fuel with
  | zero =>
    intro vr day sched out h q
    cases vr with
    | zero =>
      obtain rfl : sched = out := by simpa [loopB] using h
      simp
    | succ v => simp [loopB] at h
  | succ fuel ih =>
    intro vr day sched out h q
    cases vr with
    | zero =>
      obtain rfl : sched = out := by simpa [loopB_zero] using h
      simp
    | succ v =>
      cases hlk : lookupKey day sched with
      | none =>
        have hlk1 : lookupKey day (setKey day [] sched) = some [] :=
          lookupKey_setKey_self day [] sched
        have hs1 : (if (lookupKey day sched).isNone then setKey day [] sched else sched) =
            setKey day [] sched := by
          rw [hlk]
          rfl
        simp only [loopB] at h
        rw [hs1, hlk1] at h
        simp only [Option.getD_some] at h
        have e1 : prepVolume q (setKey day [] sched) = prepVolume q sched := by
          rw [prepVolume_setKey_none hlk]
          simp [entVol_nil]
        by_cases hg : ([] : List Entry).length < maxP ∧
            sameTypeVolume prep_details tp [] + (v + 1) ≤ maxV
        · rw [if_pos hg] at h
          obtain rfl : setKey day ([] ++ [(prep, v + 1)]) (setKey day [] sched) = out := by
            injection h
          have e2 := prepVolume_setKey_some hlk1 q ([] ++ [(prep, v + 1)])
          have e3 : entVol q ([] ++ [(prep, v + 1)]) =
              if prep = q then v + 1 else 0 := by
            simp [entVol_cons, entVol_nil]
          rw [entVol_nil, Nat.add_zero, e1, e3] at e2
          exact e2
        · rw [if_neg hg] at h
          by_cases hg2 : 0 < min (maxV - sameTypeVolume prep_details tp []) (v + 1) ∧
              ([] : List Entry).length < maxP
          · rw [if_pos hg2] at h
            have hout := ih _ _ _ _ h q
            have e2 := prepVolume_setKey_some hlk1 q
              ([] ++ [(prep, min (maxV - sameTypeVolume prep_details tp []) (v + 1))])
            have e3 : entVol q
                ([] ++ [(prep, min (maxV - sameTypeVolume prep_details tp []) (v + 1))]) =
                if prep = q then min (maxV - sameTypeVolume prep_details tp []) (v + 1)
                else 0 := by
              simp [entVol_cons, entVol_nil]
            have hmin : min (maxV - sameTypeVolume prep_details tp []) (v + 1) ≤ v + 1 :=
              Nat.min_le_right _ _
            rw [entVol_nil, Nat.add_zero, e1, e3] at e2
            rw [hout]
            by_cases hq : prep = q <;> simp [hq] at e2 ⊢ <;> omega
          · rw [if_neg hg2] at h
            have hout := ih _ _ _ _ h q
            rw [hout, e1]
      | some l =>
        have hs1 : (if (lookupKey day sched).isNone then setKey day [] sched else sched) =
            sched := by
          rw [hlk]
          rfl
        simp only [loopB] at h
        rw [hs1, hlk] at h
        simp only [Option.getD_some] at h
        by_cases hg : l.length < maxP ∧ sameTypeVolume prep_details tp l + (v + 1) ≤ maxV
        · rw [if_pos hg] at h
          obtain rfl : setKey day (l ++ [(prep, v + 1)]) sched = out := by
            injection h
          have e2 := prepVolume_setKey_some hlk q (l ++ [(prep, v + 1)])
          have e3 : entVol q (l ++ [(prep, v + 1)]) =
              entVol q l + (if prep = q then v + 1 else 0) := by
            rw [entVol_append]
            simp [entVol_cons, entVol_nil]
          rw [e3] at e2
          by_cases hq : prep = q <;> simp [hq] at e2 ⊢ <;> omega
        · rw [if_neg hg] at h
          by_cases hg2 : 0 < min (maxV - sameTypeVolume prep_details tp l) (v + 1) ∧
              l.length < maxP
          · rw [if_pos hg2] at h
            have hout := ih _ _ _ _ h q
            have e2 := prepVolume_setKey_some hlk q
              (l ++ [(prep, min (maxV - sameTypeVolume prep_details tp l) (v + 1))])
            have e3 : entVol q
                (l ++ [(prep, min (maxV - sameTypeVolume prep_details tp l) (v + 1))]) =
                entVol q l +
                  (if prep = q then min (maxV - sameTypeVolume prep_details tp l) (v + 1)
                   else 0) := by
              rw [entVol_append]
              simp [entVol_cons, entVol_nil]
            have hmin : min (maxV - sameTypeVolume prep_details tp l) (v + 1) ≤ v + 1 :=
              Nat.min_le_right _ _
            rw [e3] at e2
            rw [hout]
            by_cases hq : prep = q <;> simp [hq] at e2 ⊢ <;> omega
          · rw [if_neg hg2] at h
            exact ih _ _ _ _ h q

/-- Total aggregated volume recorded for preparation `q` in `all_preps`. -/
def aggVolA (q : String) : List (String × AggInfo) → Nat
  | [] => 0
  | pa :: rest => (if pa.1 = q then pa.2.total_volume else 0) + aggVolA q rest

/-- Total aggregated volume recorded for preparation `q` in `temp_storage`. -/
def aggVolB (q : String) : List (String × TempInfo) → Nat
  | [] => 0
  | pa :: rest => (if pa.1 = q then pa.2.volume else 0) + aggVolB q rest

theorem addAgg_vol (prep_details : PrepDetails) (day : Int) (p : String) (v : Nat)
    (q : String) : ∀ acc,
    aggVolA q (addAgg prep_details day p v acc) =
      aggVolA q acc + (if p = q then v else 0) := by
  intro acc
  induction acc with
  | nil => by_cases h : p = q <;> simp [addAgg, aggVolA, h]
  | cons pa rest ih =>
    by_cases hp : pa.1 = p
    · by_cases hq : pa.1 = q
      · have hpq : p = q := by rw [← hp, hq]
        subst hpq
        simp [addAgg, aggVolA, hp]
        omega
      · have hpq : ¬ (p = q) := by rw [← hp]; exact hq
        simp [addAgg, aggVolA, hp, hq, hpq]
    · by_cases hq : pa.1 = q
      · have hqp : ¬ (q = p) := by rw [← hq]; exact hp
        have hpq : ¬ (p = q) := fun h => hqp h.symm
        simp [addAgg, aggVolA, hp, hq, hqp, hpq, ih]
      · simp [addAgg, aggVolA, hp, hq, ih]

theorem addTemp_vol (prep_details : PrepDetails) (day : Int) (p : String) (v : Nat)
    (q : String) : ∀ acc,
    aggVolB q (addTemp prep_details day p v acc) =
      aggVolB q acc + (if p = q then v else 0) := by
  intro acc
  induction acc with
  | nil => by_cases h : p = q <;> simp [addTemp, aggVolB, h]
  | cons pa rest ih =>
    by_cases hp : pa.1 = p
    · by_cases hq : pa.1 = q
      · have hpq : p = q := by rw [← hp, hq]
        subst hpq
        simp [addTemp, aggVolB, hp]
        omega
      · have hpq : ¬ (p = q) := by rw [← hp]; exact hq
        simp [addTemp, aggVolB, hp, hq, hpq]
    · by_cases hq : pa.1 = q
      · have hqp : ¬ (q = p) := by rw [← hq]; exact hp
        have hpq : ¬ (p = q) := fun h => hqp h.symm
        simp [addTemp, aggVolB, hp, hq, hqp, hpq, ih]
      · simp [addTemp, aggVolB, hp, hq, ih]

theorem foldEntries_aggVolA (prep_details : PrepDetails) (day : Int) (q : String) :
    ∀ (entries : List Entry) (acc : List (String × AggInfo)),
      aggVolA q (entries.foldl (fun a e => addAgg prep_details day e.1 e.2 a) acc) =
        aggVolA q acc + entVol q entries := by
  intro entries
  induction entries with
  | nil => intro acc; simp [entVol_nil]
  | cons e rest ih =>
    intro acc
    rw [List.foldl_cons, ih, addAgg_vol, entVol_cons]
    omega

theorem collectPreps_vol (prep_details : PrepDetails) (q : String) :
    ∀ (s : Schedule) (acc : List (String × AggInfo)),
      aggVolA q (s.foldl
        (fun acc dp => dp.2.foldl (fun a e => addAgg prep_details dp.1 e.1 e.2 a) acc)
        acc) =
        aggVolA q acc + prepVolume q s := by
  intro s
  induction s with
  | nil => intro acc; simp [prepVolume]
  | cons dp rest ih =>
    intro acc
    rw [List.foldl_cons, ih, foldEntries_aggVolA]
    have : prepVolume q (dp :: rest) = entVol q dp.2 + prepVolume q rest := by
      simp [prepVolume]
    rw [this]
    omega

theorem foldEntries_aggVolB (prep_details : PrepDetails) (day : Int) (q : String) :
    ∀ (entries : List Entry) (acc : List (String × TempInfo)),
      aggVolB q (entries.foldl (fun a e => addTemp prep_details day e.1 e.2 a) acc) =
        aggVolB q acc + entVol q entries := by
  intro entries
  induction entries with
  | nil => intro acc; simp [entVol_nil]
  | cons e rest ih =>
    intro acc
    rw [List.foldl_cons, ih, addTemp_vol, entVol_cons]
    omega

theorem foldDays_aggVolB (prep_details : PrepDetails) (s : Schedule) (q : String) :
    ∀ (days : List Int) (acc : List (String × TempInfo)),
      aggVolB q (days.foldl
        (fun acc day =>
          ((lookupKey day s).getD []).foldl
            (fun a e => addTemp prep_details day e.1 e.2 a) acc)
        acc) =
        aggVolB q acc +
          (days.map (fun d => entVol q ((lookupKey d s).getD []))).sum := by
  intro days
  induction days with
  | nil => intro acc; simp
  | cons d rest ih =>
    intro acc
    rw [List.foldl_cons, ih, foldEntries_aggVolB]
    simp [List.map_cons]
    omega

/-- The schedule has no duplicate day keys (always true of the dict-backed
schedules the program builds; association lists built by `setKey` keep it). -/
def keysND (s : Schedule) : Prop := (s.map Prod.fst).Nodup

theorem keysND_setKey (k : Int) (v : List Entry) {s : Schedule} (h : keysND s) :
    keysND (setKey k v s) := by
  cases hlk : lookupKey k s with
  | some l =>
    unfold keysND
    rw [keys_setKey_some hlk]
    exact h
  | none =>
    have hk : k ∉ s.map Prod.fst := (lookupKey_eq_none_iff k s).mp hlk
    unfold keysND
    rw [setKey_of_lookup_none hlk, List.map_append]
    rw [List.nodup_append]
    exact ⟨h, by simp, by simp [List.disjoint_singleton, hk]⟩

theorem map_lookup_keys (q : String) :
    ∀ (s : Schedule), (s.map Prod.fst).Nodup →
      ((s.map Prod.fst).map (fun d => entVol q ((lookupKey d s).getD []))).sum =
        prepVolume q s := by
  intro s
  induction s with
  | nil => intro _; simp [prepVolume]
  | cons kv rest ih =>
    intro hnd
    simp only [List.map_cons, List.nodup_cons] at hnd
    obtain ⟨hk, hnd'⟩ := hnd
    simp only [List.map_cons, List.sum_cons]
    have h1 : lookupKey kv.1 (kv :: rest) = some kv.2 := by
      simp [lookupKey]
    have h2 : (rest.map Prod.fst).map
        (fun d => entVol q ((lookupKey d (kv :: rest)).getD [])) =
        (rest.map Prod.fst).map (fun d => entVol q ((lookupKey d rest).getD [])) := by
      refine List.map_congr_left ?_
      intro d hd
      have hne : ¬ (kv.1 = d) := fun h => hk (h ▸ hd)
      simp [lookupKey, hne]
    rw [h1, h2, ih hnd']
    simp [prepVolume]

theorem collectTemp_vol (prep_details : PrepDetails) (s : Schedule) (q : String)
    (hnd : keysND s) : aggVolB q (collectTemp prep_details s) = prepVolume q s := by
  unfold collectTemp
  rw [foldDays_aggVolB]
  have hperm : List.Perm
      (((s.map Prod.fst).insertionSort (· ≤ ·)).map
        (fun d => entVol q ((lookupKey d s).getD [])))
      ((s.map Prod.fst).map (fun d => entVol q ((lookupKey d s).getD []))) :=
    (List.perm_insertionSort (· ≤ ·) (s.map Prod.fst)).map _
  rw [hperm.sum_eq, map_lookup_keys q s hnd]
  simp [aggVolB]

theorem loopA_keysND (prep_details : PrepDetails) (maxP maxV : Nat) (prep tp : String) :
    ∀ (fuel vr : Nat) (day : Int) (sched out : Schedule),
      loopA prep_details maxP maxV prep tp fuel vr day sched = some out →
      keysND sched → keysND out := by
  intro fuel
  induction fuel with
  | zero =>
    intro vr day sched out h hnd
    cases vr with
    | zero =>
      obtain rfl : sched = out := by simpa [loopA] using h
      exact hnd
    | succ v => simp [loopA] at h
  | succ fuel ih =>
    intro vr day sched out h hnd
    cases vr with
    | zero =>
      obtain rfl : sched = out := by simpa [loopA_zero] using h
      exact hnd
    | succ v =>
      cases hlk : lookupKey day sched with
      | none =>
        have hlk1 : lookupKey day (setKey day [] sched) = some [] :=
          lookupKey_setKey_self day [] sched
        have hs1 : (if (lookupKey day sched).isNone then setKey day [] sched else sched) =
            setKey day [] sched := by
          rw [hlk]
          rfl
        simp only [loopA] at h
        rw [hs1, hlk1] at h
        simp only [Option.getD_some] at h
        have hnd1 : keysND (setKey day [] sched) := keysND_setKey day [] hnd
        by_cases hg : ([] : List Entry).length < maxP ∧
            0 < maxV - sameTypeVolume prep_details tp []
        · rw [if_pos hg] at h
          exact ih _ _ _ _ h (keysND_setKey day _ hnd1)
        · rw [if_neg hg] at h
          exact ih _ _ _ _ h hnd1
      | some l =>
        have hs1 : (if (lookupKey day sched).isNone then setKey day [] sched else sched) =
            sched := by
          rw [hlk]
          rfl
        simp only [loopA] at h
        rw [hs1, hlk] at h
        simp only [Option.getD_some] at h
        by_cases hg : l.length < maxP ∧ 0 < maxV - sameTypeVolume prep_details tp l
        · rw [if_pos hg] at h
          exact ih _ _ _ _ h (keysND_setKey day _ hnd)
        · rw [if_neg hg] at h
          exact ih _ _ _ _ h hnd

theorem loopB_keysND (prep_details : PrepDetails) (maxP maxV : Nat) (prep tp : String) :
    ∀ (fuel vr : Nat) (day : Int) (sched out : Schedule),
      loopB prep_details maxP maxV prep tp fuel vr day sched = some out →
      keysND sched → keysND out := by
  intro fuel
  induction fuel with
  | zero =>
    intro vr day sched out h hnd
    cases vr with
    | zero =>
      obtain rfl : sched = out := by simpa [loopB] using h
      exact hnd
    | succ v => simp [loopB] at h
  | succ fuel ih =>
    intro vr day sched out h hnd
    cases vr with
    | zero =>
      obtain rfl : sched = out := by simpa [loopB_zero] using h
      exact hnd
    | succ v =>
      cases hlk : lookupKey day sched with
      | none =>
        have hlk1 : lookupKey day (setKey day [] sched) = some [] :=
          lookupKey_setKey_self day [] sched
        have hs1 : (if (lookupKey day sched).isNone then setKey day [] sched else sched) =
            setKey day [] sched := by
          rw [hlk]
          rfl
        simp only [loopB] at h
        rw [hs1, hlk1] at h
        simp only [Option.getD_some] at h
        have hnd1 : keysND (setKey day [] sched) := keysND_setKey day [] hnd
        by_cases hg : ([] : List Entry).length < maxP ∧
            sameTypeVolume prep_details tp [] + (v + 1) ≤ maxV
        · rw [if_pos hg] at h
          obtain rfl : setKey day ([] ++ [(prep, v + 1)]) (setKey day [] sched) = out := by
            injection h
          exact keysND_setKey day _ hnd1
        · rw [if_neg hg] at h
          by_cases hg2 : 0 < min (maxV - sameTypeVolume prep_details tp []) (v + 1) ∧
              ([] : List Entry).length < maxP
          · rw [if_pos hg2] at h
            exact ih _ _ _ _ h (keysND_setKey day _ hnd1)
          · rw [if_neg hg2] at h
            exact ih _ _ _ _ h hnd1
      | some l =>
        have hs1 : (if (lookupKey day sched).isNone then setKey day [] sched else sched) =
            sched := by
          rw [hlk]
          rfl
        simp only [loopB] at h
        rw [hs1, hlk] at h
        simp only [Option.getD_some] at h
        by_cases hg : l.length < maxP ∧ sameTypeVolume prep_details tp l + (v + 1) ≤ maxV
        · rw [if_pos hg] at h
          obtain rfl : setKey day (l ++ [(prep, v + 1)]) sched = out := by
            injection h
          exact keysND_setKey day _ hnd
        · rw [if_neg hg] at h
          by_cases hg2 : 0 < min (maxV - sameTypeVolume prep_details tp l) (v + 1) ∧
              l.length < maxP
          · rw [if_pos hg2] at h
            exact ih _ _ _ _ h (keysND_setKey day _ hnd)
          · rw [if_neg hg2] at h
            exact ih _ _ _ _ h hnd

theorem foldLoopA_prepVolume (prep_details : PrepDetails) (maxP maxV : Nat) :
    ∀ (l : List (String × AggInfo)) (init out : Schedule),
      (l.foldlM
        (fun opt pa =>
          loopA prep_details maxP maxV pa.1 pa.2.type
            (loopFuel pa.2.total_volume pa.2.earliest_day opt)
            pa.2.total_volume pa.2.earliest_day opt)
        init) = some out →
      ∀ q, prepVolume q out = prepVolume q init + aggVolA q l := by
  intro l
  induction l with
  | nil =>
    intro init out h q
    obtain rfl : init = out := by simpa using h
    simp [aggVolA]
  | cons pa rest ih =>
    intro init out h q
    rw [List.foldlM_cons] at h
    cases hstep : loopA prep_details maxP maxV pa.1 pa.2.type
        (loopFuel pa.2.total_volume pa.2.earliest_day init)
        pa.2.total_volume pa.2.earliest_day init with
    | none => rw [hstep] at h; simp at h
    | some s1 =>
      rw [hstep] at h
      replace h : (rest.foldlM
        (fun opt pa =>
          loopA prep_details maxP maxV pa.1 pa.2.type
            (loopFuel pa.2.total_volume pa.2.earliest_day opt)
            pa.2.total_volume pa.2.earliest_day opt) s1) = some out := h
      have h1 := loopA_prepVolume prep_details maxP maxV pa.1 pa.2.type _ _ _ _ _ hstep q
      have h2 := ih s1 out h q
      simp only [aggVolA]
      omega

theorem foldLoopB_prepVolume (prep_details : PrepDetails) (maxP maxV : Nat) :
    ∀ (l : List (String × TempInfo)) (init out : Schedule),
      (l.foldlM
        (fun opt pa =>
          loopB prep_details maxP maxV pa.1 pa.2.type
            (loopFuel pa.2.volume pa.2.earliest_day opt)
            pa.2.volume pa.2.earliest_day opt)
        init) = some out →
      ∀ q, prepVolume q out = prepVolume q init + aggVolB q l := by
  intro l
  induction l with
  | nil =>
    intro init out h q
    obtain rfl : init = out := by simpa using h
    simp [aggVolB]
  | cons pa rest ih =>
    intro init out h q
    rw [List.foldlM_cons] at h
    cases hstep : loopB prep_details maxP maxV pa.1 pa.2.type
        (loopFuel pa.2.volume pa.2.earliest_day init)
        pa.2.volume pa.2.earliest_day init with
    | none => rw [hstep] at h; simp at h
    | some s1 =>
      rw [hstep] at h
      replace h : (rest.foldlM
        (fun opt pa =>
          loopB prep_details maxP maxV pa.1 pa.2.type
            (loopFuel pa.2.volume pa.2.earliest_day opt)
            pa.2.volume pa.2.earliest_day opt) s1) = some out := h
      have h1 := loopB_prepVolume prep_details maxP maxV pa.1 pa.2.type _ _ _ _ _ hstep q
      have h2 := ih s1 out h q
      simp only [aggVolB]
      omega

theorem foldLoopA_keysND (prep_details : PrepDetails) (maxP maxV : Nat) :
    ∀ (l : List (String × AggInfo)) (init out : Schedule),
      (l.foldlM
        (fun opt pa =>
          loopA prep_details maxP maxV pa.1 pa.2.type
            (loopFuel pa.2.total_volume pa.2.earliest_day opt)
            pa.2.total_volume pa.2.earliest_day opt)
        init) = some out →
      keysND init → keysND out := by
  intro l
  induction l with
  | nil =>
    intro init out h hnd
    obtain rfl : init = out := by simpa using h
    exact hnd
  | cons pa rest ih =>
    intro init out h hnd
    rw [List.foldlM_cons] at h
    cases hstep : loopA prep_details maxP maxV pa.1 pa.2.type
        (loopFuel pa.2.total_volume pa.2.earliest_day init)
        pa.2.total_volume pa.2.earliest_day init with
    | none => rw [hstep] at h; simp at h
    | some s1 =>
      rw [hstep] at h
      replace h : (rest.foldlM
        (fun opt pa =>
          loopA prep_details maxP maxV pa.1 pa.2.type
            (loopFuel pa.2.total_volume pa.2.earliest_day opt)
            pa.2.total_volume pa.2.earliest_day opt) s1) = some out := h
      exact ih s1 out h
        (loopA_keysND prep_details maxP maxV pa.1 pa.2.type _ _ _ _ _ hstep hnd)

/-- Pass A conservation: `consolidate_preps` leaves every preparation's total
scheduled volume unchanged. -/
theorem consolidate_preps_prepVolume (s : Schedule) (prep_details : PrepDetails)
    (q : String) :
    prepVolume q (consolidate_preps s prep_details 2 500) = prepVolume q s := by
  have hA := foldLoopA_isSome prep_details 2 500 (by omega) (by omega) (collectPreps prep_details s) []
  rcases Option.isSome_iff_exists.mp hA with ⟨out, hout⟩
  have heq : consolidate_preps s prep_details 2 500 = out := by
    rw [consolidate_preps, consolidate_preps_opt, hout]
    rfl
  rw [heq]
  have h1 := foldLoopA_prepVolume prep_details 2 500 (collectPreps prep_details s)
    [] out hout q
  have h2 := collectPreps_vol prep_details q s []
  rw [collectPreps] at h1
  have h0 : prepVolume q ([] : Schedule) = 0 := by simp [prepVolume]
  rw [h0] at h1
  simp only [aggVolA] at h2
  omega

theorem consolidate_preps_keysND (s : Schedule) (prep_details : PrepDetails) :
    keysND (consolidate_preps s prep_details 2 500) := by
  have hA := foldLoopA_isSome prep_details 2 500 (by omega) (by omega) (collectPreps prep_details s) []
  rcases Option.isSome_iff_exists.mp hA with ⟨out, hout⟩
  have heq : consolidate_preps s prep_details 2 500 = out := by
    rw [consolidate_preps, consolidate_preps_opt, hout]
    rfl
  rw [heq]
  exact foldLoopA_keysND prep_details 2 500 (collectPreps prep_details s) [] out hout
    (by simp [keysND])

/-- Pass B conservation on key-duplicate-free schedules (every schedule the
pipeline builds is such). -/
theorem consolidate_preps_with_constraints_prepVolume (s : Schedule)
    (prep_details : PrepDetails) (q : String) (hnd : keysND s) :
    prepVolume q (consolidate_preps_with_constraints s prep_details 2 500) =
      prepVolume q s := by
  have hB := foldLoopB_isSome prep_details 2 500 (by omega) (by omega) (collectTemp prep_details s) []
  rcases Option.isSome_iff_exists.mp hB with ⟨out, hout⟩
  have heq : consolidate_preps_with_constraints s prep_details 2 500 = out := by
    rw [consolidate_preps_with_constraints, consolidate_preps_with_constraints_opt, hout]
    rfl
  rw [heq]
  have h1 := foldLoopB_prepVolume prep_details 2 500 (collectTemp prep_details s)
    [] out hout q
  have h2 := collectTemp_vol prep_details s q hnd
  have h0 : prepVolume q ([] : Schedule) = 0 := by simp [prepVolume]
  rw [h0] at h1
  omega

theorem appendEntryAt_prepVolume (day : Int) (e : Entry) (s : Schedule) (q : String) :
    prepVolume q (appendEntryAt day e s) =
      prepVolume q s + (if e.1 = q then e.2 else 0) := by
  unfold appendEntryAt
  cases hlk : lookupKey day s with
  | none =>
    simp only [Option.getD_none, if_true]
    rw [lookupKey_setKey_self]
    simp only [Option.getD_some]
    have e1 : prepVolume q (setKey day [] s) = prepVolume q s := by
      rw [prepVolume_setKey_none hlk]
      simp [entVol_nil]
    have e2 := prepVolume_setKey_some (lookupKey_setKey_self day [] s) q ([] ++ [e])
    have e3 : entVol q ([] ++ [e]) = if e.1 = q then e.2 else 0 := by
      simp [entVol_cons, entVol_nil]
    rw [entVol_nil, Nat.add_zero, e1, e3] at e2
    exact e2
  | some l =>
    by_cases hl : l = []
    · subst hl
      simp only [Option.getD_some, if_true]
      rw [lookupKey_setKey_self]
      simp only [Option.getD_some]
      have e1 : prepVolume q (setKey day [] s) = prepVolume q s := by
        have := prepVolume_setKey_some hlk q []
        omega
      have e2 := prepVolume_setKey_some (lookupKey_setKey_self day [] s) q ([] ++ [e])
      have e3 : entVol q ([] ++ [e]) = if e.1 = q then e.2 else 0 := by
        simp [entVol_cons, entVol_nil]
      rw [entVol_nil, Nat.add_zero, e1, e3] at e2
      exact e2
    · simp only [Option.getD_some, if_neg hl]
      rw [hlk]
      simp only [Option.getD_some]
      have e2 := prepVolume_setKey_some hlk q (l ++ [e])
      have e3 : entVol q (l ++ [e]) = entVol q l + (if e.1 = q then e.2 else 0) := by
        rw [entVol_append, entVol_single]
      rw [e3] at e2
      omega

theorem placeBatches_prepVolume (prep q : String) :
    ∀ (batches : List Entry) (avail : List Int) (s : Schedule) (r : List Entry),
      prepVolume q (placeBatches prep batches avail s r).1 +
        entVol q (placeBatches prep batches avail s r).2 =
      prepVolume q s + entVol q r +
        (if prep = q then (batches.map Prod.snd).sum else 0) := by
  intro batches
  induction batches with
  | nil =>
    intro avail s r
    simp [placeBatches]
  | cons b rest ih =>
    intro avail s r
    cases hga : avail.getLast? with
    | none =>
      simp only [placeBatches, hga]
      rw [ih]
      have h1 : entVol q (r ++ [(prep, b.2)]) =
          entVol q r + (if prep = q then b.2 else 0) := by
        rw [entVol_append, entVol_single]
      rw [h1]
      by_cases hq : prep = q <;> simp [hq] <;> try omega
    | some d =>
      simp only [placeBatches, hga]
      rw [ih]
      have h1 := appendEntryAt_prepVolume d (prep, b.2) s q
      rw [h1]
      by_cases hq : prep = q <;> simp [hq] <;> try omega

theorem schedulePrep_prepVolume (prep_details : PrepDetails) (task_date : Int)
    (prep : String) (volume : Nat) (s : Schedule) (r : List Entry) (q : String) :
    prepVolume q (schedulePrep prep_details task_date prep volume s r).1 +
      entVol q (schedulePrep prep_details task_date prep volume s r).2 =
    prepVolume q s + entVol q r + (if prep = q then volume else 0) := by
  unfold schedulePrep
  rw [placeBatches_prepVolume]
  rw [(distribute_volume_spec prep volume).2.2.1]

theorem foldReqs_prepVolume (prep_details : PrepDetails) (task_date : Int) (q : String) :
    ∀ (reqs : List Entry) (acc : Schedule × List Entry),
      prepVolume q (reqs.foldl
          (fun acc2 pv => schedulePrep prep_details task_date pv.1 pv.2 acc2.1 acc2.2)
          acc).1 +
        entVol q (reqs.foldl
          (fun acc2 pv => schedulePrep prep_details task_date pv.1 pv.2 acc2.1 acc2.2)
          acc).2 =
      prepVolume q acc.1 + entVol q acc.2 + entVol q reqs := by
  intro reqs
  induction reqs with
  | nil => intro acc; simp [entVol_nil]
  | cons pv rest ih =>
    intro acc
    rw [List.foldl_cons]
    have h1 := ih (schedulePrep prep_details task_date pv.1 pv.2 acc.1 acc.2)
    have h2 := schedulePrep_prepVolume prep_details task_date pv.1 pv.2 acc.1 acc.2 q
    rw [entVol_cons]
    omega

theorem optimize_prepVolume (task_dates : List (String × Int))
    (tasks : String → List Entry) (prep_details : PrepDetails) (q : String) :
    prepVolume q (optimize_schedule task_dates tasks prep_details).1 +
      entVol q (optimize_schedule task_dates tasks prep_details).2 =
    reqVolume tasks task_dates q := by
  suffices h : ∀ (tds : List (String × Int)) (acc : Schedule × List Entry),
      prepVolume q (tds.foldl
          (fun acc td =>
            (tasks td.1).foldl
              (fun acc2 pv => schedulePrep prep_details td.2 pv.1 pv.2 acc2.1 acc2.2)
              acc)
          acc).1 +
        entVol q (tds.foldl
          (fun acc td =>
            (tasks td.1).foldl
              (fun acc2 pv => schedulePrep prep_details td.2 pv.1 pv.2 acc2.1 acc2.2)
              acc)
          acc).2 =
      prepVolume q acc.1 + entVol q acc.2 +
        (tds.map (fun td => entVol q (tasks td.1))).sum by
    have h0 := h task_dates ([], [])
    rw [optimize_schedule, reqVolume]
    simp only [prepVolume, entVol, List.map_nil, List.sum_nil, List.filter_nil,
      Nat.zero_add] at h0 ⊢
    exact h0
  intro tds
  induction tds with
  | nil => intro acc; simp [entVol_nil]
  | cons td rest ih =>
    intro acc
    rw [List.foldl_cons]
    have h1 := ih ((tasks td.1).foldl
      (fun acc2 pv => schedulePrep prep_details td.2 pv.1 pv.2 acc2.1 acc2.2) acc)
    have h2 := foldReqs_prepVolume prep_details td.2 q (tasks td.1) acc
    simp only [List.map_cons, List.sum_cons]
    omega

/-- C2: conservation of volume.  For every preparation, its total volume in
the final schedule (Initial Scheduler, then Pass A, then Pass B) plus the
volume reported as unplaceable equals the total volume requested across all
tasks; in particular each consolidation pass leaves every preparation's
total scheduled volume unchanged. -/
theorem volume_conservation (task_dates : List (String × Int))
    (tasks : String → List Entry) (prep_details : PrepDetails) (q : String) :
    prepVolume q
        (consolidate_preps_with_constraints
          (consolidate_preps (optimize_schedule task_dates tasks prep_details).1
            prep_details 2 500)
          prep_details 2 500) +
      entVol q (optimize_schedule task_dates tasks prep_details).2 =
      reqVolume tasks task_dates q ∧
    prepVolume q
        (consolidate_preps (optimize_schedule task_dates tasks prep_details).1
          prep_details 2 500) =
      prepVolume q (optimize_schedule task_dates tasks prep_details).1 ∧
    prepVolume q
        (consolidate_preps_with_constraints
          (consolidate_preps (optimize_schedule task_dates tasks prep_details).1
            prep_details 2 500)
          prep_details 2 500) =
      prepVolume q
        (consolidate_preps (optimize_schedule task_dates tasks prep_details).1
          prep_details 2 500) := by
  have hA := consolidate_preps_prepVolume
    (optimize_schedule task_dates tasks prep_details).1 prep_details q
  have hB := consolidate_preps_with_constraints_prepVolume
    (consolidate_preps (optimize_schedule task_dates tasks prep_details).1
      prep_details 2 500)
    prep_details q
    (consolidate_preps_keysND (optimize_schedule task_dates tasks prep_details).1
      prep_details)
  have hO := optimize_prepVolume task_dates tasks prep_details q
  exact ⟨by omega, hA, hB⟩

/-! ### Capacity invariants: claim C1 -/

theorem dayOk_nil (prep_details : PrepDetails) (maxP maxV : Nat) :
    dayOk prep_details maxP maxV [] := by
  constructor
  · simp
  · intro t
    simp [sameTypeVolume_nil]

theorem dayOk_append (prep_details : PrepDetails) (maxP maxV : Nat)
    {l : List Entry} {prep tp : String} {add : Nat}
    (htp : (prep_details prep).type = tp) (hok : dayOk prep_details maxP maxV l)
    (hlen : l.length < maxP)
    (hvol : sameTypeVolume prep_details tp l + add ≤ maxV) :
    dayOk prep_details maxP maxV (l ++ [(prep, add)]) := by
  constructor
  · simp
    omega
  · intro t
    rw [sameTypeVolume_append]
    by_cases ht : (prep_details (prep, add).1).type = t
    · simp only [ht, if_true]
      have htt : t = tp := by
        rw [← ht]
        exact htp
      subst htt
      exact hvol
    · simp only [ht, if_false]
      exact hok.2 t

theorem schedOk_setKey (prep_details : PrepDetails) (maxP maxV : Nat)
    {s : Schedule} (k : Int) {v : List Entry}
    (hs : schedOk prep_details maxP maxV s) (hv : dayOk prep_details maxP maxV v) :
    schedOk prep_details maxP maxV (setKey k v s) := by
  intro dp hdp
  rcases mem_setKey hdp with h | h
  · exact hs dp h
  · rw [h]
    exact hv

theorem schedOk_entries (prep_details : PrepDetails) (maxP maxV : Nat)
    {s : Schedule} {day : Int} {l : List Entry}
    (hs : schedOk prep_details maxP maxV s) (hlk : lookupKey day s = some l) :
    dayOk prep_details maxP maxV l :=
  hs (day, l) (lookupKey_mem hlk)

theorem loopA_schedOk (prep_details : PrepDetails) (maxP maxV : Nat) {prep tp : String}
    (htp : (prep_details prep).type = tp) :
    ∀ (fuel vr : Nat) (day : Int) (sched out : Schedule),
      loopA prep_details maxP maxV prep tp fuel vr day sched = some out →
      schedOk prep_details maxP maxV sched → schedOk prep_details maxP maxV out := by
  intro fuel
  induction fuel with
  | zero =>
    intro vr day sched out h hok
    cases vr with
    | zero =>
      obtain rfl : sched = out := by simpa [loopA] using h
      exact hok
    | succ v => simp [loopA] at h
  | succ fuel ih =>
    intro vr day sched out h hok
    cases vr with
    | zero =>
      obtain rfl : sched = out := by simpa [loopA_zero] using h
      exact hok
    | succ v =>
      cases hlk : lookupKey day sched with
      | none =>
        have hlk1 : lookupKey day (setKey day [] sched) = some [] :=
          lookupKey_setKey_self day [] sched
        have hs1 : (if (lookupKey day sched).isNone then setKey day [] sched else sched) =
            setKey day [] sched := by
          rw [hlk]
          rfl
        simp only [loopA] at h
        rw [hs1, hlk1] at h
        simp only [Option.getD_some] at h
        have hok1 : schedOk prep_details maxP maxV (setKey day [] sched) :=
          schedOk_setKey prep_details maxP maxV day hok (dayOk_nil prep_details maxP maxV)
        by_cases hg : ([] : List Entry).length < maxP ∧
            0 < maxV - sameTypeVolume prep_details tp []
        · rw [if_pos hg] at h
          refine ih _ _ _ _ h (schedOk_setKey prep_details maxP maxV day hok1 ?_)
          refine dayOk_append prep_details maxP maxV htp
            (dayOk_nil prep_details maxP maxV) hg.1 ?_
          have hmin : min (v + 1) (maxV - sameTypeVolume prep_details tp []) ≤
              maxV - sameTypeVolume prep_details tp [] := Nat.min_le_right _ _
          omega
        · rw [if_neg hg] at h
          exact ih _ _ _ _ h hok1
      | some l =>
        have hs1 : (if (lookupKey day sched).isNone then setKey day [] sched else sched) =
            sched := by
          rw [hlk]
          rfl
        simp only [loopA] at h
        rw [hs1, hlk] at h
        simp only [Option.getD_some] at h
        have hokl : dayOk prep_details maxP maxV l :=
          schedOk_entries prep_details maxP maxV hok hlk
        by_cases hg : l.length < maxP ∧ 0 < maxV - sameTypeVolume prep_details tp l
        · rw [if_pos hg] at h
          refine ih _ _ _ _ h (schedOk_setKey prep_details maxP maxV day hok ?_)
          refine dayOk_append prep_details maxP maxV htp hokl hg.1 ?_
          have hmin : min (v + 1) (maxV - sameTypeVolume prep_details tp l) ≤
              maxV - sameTypeVolume prep_details tp l := Nat.min_le_right _ _
          have hle := hokl.2 tp
          omega
        · rw [if_neg hg] at h
          exact ih _ _ _ _ h hok

theorem loopB_schedOk (prep_details : PrepDetails) (maxP maxV : Nat) {prep tp : String}
    (htp : (prep_details prep).type = tp) :
    ∀ (fuel vr : Nat) (day : Int) (sched out : Schedule),
      loopB prep_details maxP maxV prep tp fuel vr day sched = some out →
      schedOk prep_details maxP maxV sched → schedOk prep_details maxP maxV out := by
  intro fuel
  induction fuel with
  | zero =>
    intro vr day sched out h hok
    cases vr with
    | zero =>
      obtain rfl : sched = out := by simpa [loopB] using h
      exact hok
    | succ v => simp [loopB] at h
  | succ fuel ih =>
    intro vr day sched out h hok
    cases vr with
    | zero =>
      obtain rfl : sched = out := by simpa [loopB_zero] using h
      exact hok
    | succ v =>
      cases hlk : lookupKey day sched with
      | none =>
        have hlk1 : lookupKey day (setKey day [] sched) = some [] :=
          lookupKey_setKey_self day [] sched
        have hs1 : (if (lookupKey day sched).isNone then setKey day [] sched else sched) =
            setKey day [] sched := by
          rw [hlk]
          rfl
        simp only [loopB] at h
        rw [hs1, hlk1] at h
        simp only [Option.getD_some] at h
        have hok1 : schedOk prep_details maxP maxV (setKey day [] sched) :=
          schedOk_setKey prep_details maxP maxV day hok (dayOk_nil prep_details maxP maxV)
        by_cases hg : ([] : List Entry).length < maxP ∧
            sameTypeVolume prep_details tp [] + (v + 1) ≤ maxV
        · rw [if_pos hg] at h
          obtain rfl : setKey day ([] ++ [(prep, v + 1)]) (setKey day [] sched) = out := by
            injection h
          refine schedOk_setKey prep_details maxP maxV day hok1 ?_
          exact dayOk_append prep_details maxP maxV htp
            (dayOk_nil prep_details maxP maxV) hg.1 hg.2
        · rw [if_neg hg] at h
          by_cases hg2 : 0 < min (maxV - sameTypeVolume prep_details tp []) (v + 1) ∧
              ([] : List Entry).length < maxP
          · rw [if_pos hg2] at h
            refine ih _ _ _ _ h (schedOk_setKey prep_details maxP maxV day hok1 ?_)
            refine dayOk_append prep_details maxP maxV htp
              (dayOk_nil prep_details maxP maxV) hg2.2 ?_
            have hmin : min (maxV - sameTypeVolume prep_details tp []) (v + 1) ≤
                maxV - sameTypeVolume prep_details tp [] := Nat.min_le_left _ _
            omega
          · rw [if_neg hg2] at h
            exact ih _ _ _ _ h hok1
      | some l =>
        have hs1 : (if (lookupKey day sched).isNone then setKey day [] sched else sched) =
            sched := by
          rw [hlk]
          rfl
        simp only [loopB] at h
        rw [hs1, hlk] at h
        simp only [Option.getD_some] at h
        have hokl : dayOk prep_details maxP maxV l :=
          schedOk_entries prep_details maxP maxV hok hlk
        by_cases hg : l.length < maxP ∧ sameTypeVolume prep_details tp l + (v + 1) ≤ maxV
        · rw [if_pos hg] at h
          obtain rfl : setKey day (l ++ [(prep, v + 1)]) sched = out := by
            injection h
          refine schedOk_setKey prep_details maxP maxV day hok ?_
          exact dayOk_append prep_details maxP maxV htp hokl hg.1 hg.2
        · rw [if_neg hg] at h
          by_cases hg2 : 0 < min (maxV - sameTypeVolume prep_details tp l) (v + 1) ∧
              l.length < maxP
          · rw [if_pos hg2] at h
            refine ih _ _ _ _ h (schedOk_setKey prep_details maxP maxV day hok ?_)
            refine dayOk_append prep_details maxP maxV htp hokl hg2.2 ?_
            have hmin : min (maxV - sameTypeVolume prep_details tp l) (v + 1) ≤
                maxV - sameTypeVolume prep_details tp l := Nat.min_le_left _ _
            have hle := hokl.2 tp
            omega
          · rw [if_neg hg2] at h
            exact ih _ _ _ _ h hok

theorem addAgg_type (prep_details : PrepDetails) (day : Int) (p : String) (v : Nat) :
    ∀ (acc : List (String × AggInfo)),
      (∀ pb ∈ acc, (prep_details pb.1).type = pb.2.type) →
      ∀ pb ∈ addAgg prep_details day p v acc, (prep_details pb.1).type = pb.2.type := by
  intro acc
  induction acc with
  | nil =>
    intro _ pb hpb
    simp [addAgg] at hpb
    rw [hpb]
  | cons pa rest ih =>
    intro hacc pb hpb
    by_cases hp : pa.1 = p
    · simp only [addAgg, if_pos hp, List.mem_cons] at hpb
      rcases hpb with h | h
      · rw [h]
        exact hacc pa (List.mem_cons_self _ _)
      · exact hacc pb (List.mem_cons_of_mem _ h)
    · simp only [addAgg, if_neg hp, List.mem_cons] at hpb
      rcases hpb with h | h
      · rw [h]
        exact hacc pa (List.mem_cons_self _ _)
      · exact ih (fun pb hpb => hacc pb (List.mem_cons_of_mem _ hpb)) pb h

theorem addTemp_type (prep_details : PrepDetails) (day : Int) (p : String) (v : Nat) :
    ∀ (acc : List (String × TempInfo)),
      (∀ pb ∈ acc, (prep_details pb.1).type = pb.2.type) →
      ∀ pb ∈ addTemp prep_details day p v acc, (prep_details pb.1).type = pb.2.type := by
  intro acc
  induction acc with
  | nil =>
    intro _ pb hpb
    simp [addTemp] at hpb
    rw [hpb]
  | cons pa rest ih =>
    intro hacc pb hpb
    by_cases hp : pa.1 = p
    · simp only [addTemp, if_pos hp, List.mem_cons] at hpb
      rcases hpb with h | h
      · rw [h]
        exact hacc pa (List.mem_cons_self _ _)
      · exact hacc pb (List.mem_cons_of_mem _ h)
    · simp only [addTemp, if_neg hp, List.mem_cons] at hpb
      rcases hpb with h | h
      · rw [h]
        exact hacc pa (List.mem_cons_self _ _)
      · exact ih (fun pb hpb => hacc pb (List.mem_cons_of_mem _ hpb)) pb h

theorem collectPreps_type (prep_details : PrepDetails) (s : Schedule) :
    ∀ pb ∈ collectPreps prep_details s, (prep_details pb.1).type = pb.2.type := by
  have inner : ∀ (day : Int) (entries : List Entry) (acc : List (String × AggInfo)),
      (∀ pb ∈ acc, (prep_details pb.1).type = pb.2.type) →
      ∀ pb ∈ entries.foldl (fun a e => addAgg prep_details day e.1 e.2 a) acc,
        (prep_details pb.1).type = pb.2.type := by
    intro day entries
    induction entries with
    | nil => intro acc hacc; exact hacc
    | cons e rest ih =>
      intro acc hacc
      rw [List.foldl_cons]
      exact ih _ (addAgg_type prep_details day e.1 e.2 acc hacc)
  have outer : ∀ (ss : Schedule) (acc : List (String × AggInfo)),
      (∀ pb ∈ acc, (prep_details pb.1).type = pb.2.type) →
      ∀ pb ∈ ss.foldl
        (fun acc dp => dp.2.foldl (fun a e => addAgg prep_details dp.1 e.1 e.2 a) acc)
        acc, (prep_details pb.1).type = pb.2.type := by
    intro ss
    induction ss with
    | nil => intro acc hacc; exact hacc
    | cons dp rest ih =>
      intro acc hacc
      rw [List.foldl_cons]
      exact ih _ (inner dp.1 dp.2 acc hacc)
  exact outer s [] (by simp)

theorem collectTemp_type (prep_details : PrepDetails) (s : Schedule) :
    ∀ pb ∈ collectTemp prep_details s, (prep_details pb.1).type = pb.2.type := by
  have inner : ∀ (day : Int) (entries : List Entry) (acc : List (String × TempInfo)),
      (∀ pb ∈ acc, (prep_details pb.1).type = pb.2.type) →
      ∀ pb ∈ entries.foldl (fun a e => addTemp prep_details day e.1 e.2 a) acc,
        (prep_details pb.1).type = pb.2.type := by
    intro day entries
    induction entries with
    | nil => intro acc hacc; exact hacc
    | cons e rest ih =>
      intro acc hacc
      rw [List.foldl_cons]
      exact ih _ (addTemp_type prep_details day e.1 e.2 acc hacc)
  have outer : ∀ (days : List Int) (acc : List (String × TempInfo)),
      (∀ pb ∈ acc, (prep_details pb.1).type = pb.2.type) →
      ∀ pb ∈ days.foldl
        (fun acc day =>
          ((lookupKey day s).getD []).foldl
            (fun a e => addTemp prep_details day e.1 e.2 a) acc)
        acc, (prep_details pb.1).type = pb.2.type := by
    intro days
    induction days with
    | nil => intro acc hacc; exact hacc
    | cons d rest ih =>
      intro acc hacc
      rw [List.foldl_cons]
      exact ih _ (inner d _ acc hacc)
  exact outer _ [] (by simp)

theorem foldLoopA_schedOk (prep_details : PrepDetails) (maxP maxV : Nat) :
    ∀ (l : List (String × AggInfo)) (init out : Schedule),
      (∀ pb ∈ l, (prep_details pb.1).type = pb.2.type) →
      (l.foldlM
        (fun opt pa =>
          loopA prep_details maxP maxV pa.1 pa.2.type
            (loopFuel pa.2.total_volume pa.2.earliest_day opt)
            pa.2.total_volume pa.2.earliest_day opt)
        init) = some out →
      schedOk prep_details maxP maxV init → schedOk prep_details maxP maxV out := by
  intro l
  induction l with
  | nil =>
    intro init out _ h hok
    obtain rfl : init = out := by simpa using h
    exact hok
  | cons pa rest ih =>
    intro init out htypes h hok
    rw [List.foldlM_cons] at h
    cases hstep : loopA prep_details maxP maxV pa.1 pa.2.type
        (loopFuel pa.2.total_volume pa.2.earliest_day init)
        pa.2.total_volume pa.2.earliest_day init with
    | none => rw [hstep] at h; simp at h
    | some s1 =>
      rw [hstep] at h
      replace h : (rest.foldlM
        (fun opt pa =>
          loopA prep_details maxP maxV pa.1 pa.2.type
            (loopFuel pa.2.total_volume pa.2.earliest_day opt)
            pa.2.total_volume pa.2.earliest_day opt) s1) = some out := h
      refine ih s1 out (fun pb hpb => htypes pb (List.mem_cons_of_mem _ hpb)) h ?_
      exact loopA_schedOk prep_details maxP maxV
        (htypes pa (List.mem_cons_self _ _)) _ _ _ _ _ hstep hok

theorem foldLoopB_schedOk (prep_details : PrepDetails) (maxP maxV : Nat) :
    ∀ (l : List (String × TempInfo)) (init out : Schedule),
      (∀ pb ∈ l, (prep_details pb.1).type = pb.2.type) →
      (l.foldlM
        (fun opt pa =>
          loopB prep_details maxP maxV pa.1 pa.2.type
            (loopFuel pa.2.volume pa.2.earliest_day opt)
            pa.2.volume pa.2.earliest_day opt)
        init) = some out →
      schedOk prep_details maxP maxV init → schedOk prep_details maxP maxV out := by
  intro l
  induction l with
  | nil =>
    intro init out _ h hok
    obtain rfl : init = out := by simpa using h
    exact hok
  | cons pa rest ih =>
    intro init out htypes h hok
    rw [List.foldlM_cons] at h
    cases hstep : loopB prep_details maxP maxV pa.1 pa.2.type
        (loopFuel pa.2.volume pa.2.earliest_day init)
        pa.2.volume pa.2.earliest_day init with
    | none => rw [hstep] at h; simp at h
    | some s1 =>
      rw [hstep] at h
      replace h : (rest.foldlM
        (fun opt pa =>
          loopB prep_details maxP maxV pa.1 pa.2.type
            (loopFuel pa.2.volume pa.2.earliest_day opt)
            pa.2.volume pa.2.earliest_day opt) s1) = some out := h
      refine ih s1 out (fun pb hpb => htypes pb (List.mem_cons_of_mem _ hpb)) h ?_
      exact loopB_schedOk prep_details maxP maxV
        (htypes pa (List.mem_cons_self _ _)) _ _ _ _ _ hstep hok

theorem consolidate_preps_schedOk (s : Schedule) (prep_details : PrepDetails)
    (maxP maxV : Nat) :
    schedOk prep_details maxP maxV (consolidate_preps s prep_details maxP maxV) := by
  rw [consolidate_preps]
  cases hopt : consolidate_preps_opt s prep_details maxP maxV with
  | none => intro dp hdp; simp at hdp
  | some out =>
    simp only [Option.getD_some]
    rw [consolidate_preps_opt] at hopt
    exact foldLoopA_schedOk prep_details maxP maxV _ [] out
      (collectPreps_type prep_details s) hopt (by intro dp hdp; simp at hdp)

theorem consolidate_preps_with_constraints_schedOk (s : Schedule)
    (prep_details : PrepDetails) (maxP maxV : Nat) :
    schedOk prep_details maxP maxV
      (consolidate_preps_with_constraints s prep_details maxP maxV) := by
  rw [consolidate_preps_with_constraints]
  cases hopt : consolidate_preps_with_constraints_opt s prep_details maxP maxV with
  | none => intro dp hdp; simp at hdp
  | some out =>
    simp only [Option.getD_some]
    rw [consolidate_preps_with_constraints_opt] at hopt
    exact foldLoopB_schedOk prep_details maxP maxV _ [] out
      (collectTemp_type prep_details s) hopt (by intro dp hdp; simp at hdp)

/-- Number of entries already scheduled on day `d`. -/
def dayLen (d : Int) (s : Schedule) : Nat := ((lookupKey d s).getD []).length

theorem favd_dayLen (schedule : Schedule) (current_type : String)
    (date_list : List Int) (prep_details : PrepDetails) :
    ∀ d ∈ find_available_days schedule current_type date_list prep_details,
      dayLen d schedule ≤ 1 := by
  intro d hd
  rw [(find_available_days_spec schedule current_type date_list prep_details).1] at hd
  have hpred := List.of_mem_filter hd
  unfold availablePred at hpred
  cases hlk : lookupKey d schedule with
  | none => simp [dayLen, hlk]
  | some entries =>
    rw [hlk] at hpred
    simp only [Bool.and_eq_true, decide_eq_true_eq] at hpred
    simp [dayLen, hlk]
    omega

theorem get_working_days_nodup (start_date end_date : Int) :
    (get_working_days start_date end_date).Nodup :=
  (get_working_days_sorted start_date end_date).imp (fun h => ne_of_lt h)

theorem lookupKey_appendEntryAt_self (day : Int) (e : Entry) (s : Schedule) :
    lookupKey day (appendEntryAt day e s) =
      some ((lookupKey day s).getD [] ++ [e]) := by
  unfold appendEntryAt
  cases hlk : lookupKey day s with
  | none =>
    simp only [Option.getD_none, if_true]
    rw [lookupKey_setKey_self]
    simp [lookupKey_setKey_self]
  | some l =>
    by_cases hl : l = []
    · subst hl
      simp only [Option.getD_some, if_true]
      rw [lookupKey_setKey_self]
      simp [lookupKey_setKey_self]
    · simp only [Option.getD_some, if_neg hl]
      rw [hlk]
      simp [lookupKey_setKey_self]

theorem lookupKey_appendEntryAt_ne {d day : Int} (h : d ≠ day) (e : Entry)
    (s : Schedule) : lookupKey d (appendEntryAt day e s) = lookupKey d s := by
  unfold appendEntryAt
  cases hlk : lookupKey day s with
  | none =>
    simp only [Option.getD_none, if_true]
    rw [lookupKey_setKey_ne h, lookupKey_setKey_ne h]
  | some l =>
    by_cases hl : l = []
    · subst hl
      simp only [Option.getD_some, if_true]
      rw [lookupKey_setKey_ne h, lookupKey_setKey_ne h]
    · simp only [Option.getD_some, if_neg hl]
      rw [lookupKey_setKey_ne h]

theorem dayLen_appendEntryAt_self (day : Int) (e : Entry) (s : Schedule) :
    dayLen day (appendEntryAt day e s) = dayLen day s + 1 := by
  unfold dayLen
  rw [lookupKey_appendEntryAt_self]
  simp

theorem dayLen_appendEntryAt_ne {d day : Int} (h : d ≠ day) (e : Entry) (s : Schedule) :
    dayLen d (appendEntryAt day e s) = dayLen d s := by
  unfold dayLen
  rw [lookupKey_appendEntryAt_ne h]

theorem placeBatches_dayLen (prep : String) :
    ∀ (batches : List Entry) (avail : List Int) (s : Schedule) (r : List Entry),
      (∀ d, dayLen d s ≤ 2) → (∀ d ∈ avail, dayLen d s ≤ 1) → avail.Nodup →
      ∀ d, dayLen d (placeBatches prep batches avail s r).1 ≤ 2 := by
  intro batches
  induction batches with
  | nil =>
    intro avail s r h2 _ _ d
    simpa [placeBatches] using h2 d
  | cons b rest ih =>
    intro avail s r h2 h1 hnd d
    rcases List.eq_nil_or_concat avail with rfl | ⟨as, y, rfl⟩
    · simp only [placeBatches, List.getLast?_nil]
      exact ih [] s _ h2 h1 hnd d
    · simp only [List.concat_eq_append] at *
      have hget : (as ++ [y]).getLast? = some y := by simp [List.getLast?_append]
      have hdrop : (as ++ [y]).dropLast = as := by simp
      simp only [placeBatches, hget, hdrop]
      have hy : dayLen y s ≤ 1 := h1 y (by simp)
      have hynotin : y ∉ as := by
        rw [List.nodup_append] at hnd
        have := hnd.2.2
        intro hmem
        exact this hmem (by simp)
      refine ih as (appendEntryAt y (prep, b.2) s) _ ?_ ?_ ?_ d
      · intro d'
        by_cases hd : d' = y
        · subst hd
          rw [dayLen_appendEntryAt_self]
          omega
        · rw [dayLen_appendEntryAt_ne hd]
          exact h2 d'
      · intro d' hd'
        have hne : d' ≠ y := fun h => hynotin (h ▸ hd')
        rw [dayLen_appendEntryAt_ne hne]
        exact h1 d' (by simp [hd'])
      · rw [List.nodup_append] at hnd
        exact hnd.1

theorem schedulePrep_dayLen (prep_details : PrepDetails) (task_date : Int)
    (prep : String) (volume : Nat) (s : Schedule) (r : List Entry)
    (h2 : ∀ d, dayLen d s ≤ 2) :
    ∀ d, dayLen d (schedulePrep prep_details task_date prep volume s r).1 ≤ 2 := by
  unfold schedulePrep
  refine placeBatches_dayLen prep _ _ s r h2 ?_ ?_
  · exact favd_dayLen s _ _ prep_details
  · exact ((find_available_days_spec s _ _ prep_details).2.1).nodup
      (get_working_days_nodup _ _)

/-- Day-count bound on the Initial Scheduler's output: every day of the
schedule `optimize_schedule` builds holds at most 2 entries. -/
theorem optimize_dayLen (task_dates : List (String × Int))
    (tasks : String → List Entry) (prep_details : PrepDetails) :
    ∀ d, dayLen d (optimize_schedule task_dates tasks prep_details).1 ≤ 2 := by
  have inner : ∀ (td : Int) (reqs : List Entry) (acc : Schedule × List Entry),
      (∀ d, dayLen d acc.1 ≤ 2) →
      ∀ d, dayLen d (reqs.foldl
        (fun acc2 pv => schedulePrep prep_details td pv.1 pv.2 acc2.1 acc2.2) acc).1 ≤ 2 := by
    intro td reqs
    induction reqs with
    | nil => intro acc h; exact h
    | cons pv rest ih =>
      intro acc h
      rw [List.foldl_cons]
      exact ih _ (schedulePrep_dayLen prep_details td pv.1 pv.2 acc.1 acc.2 h)
  have outer : ∀ (tds : List (String × Int)) (acc : Schedule × List Entry),
      (∀ d, dayLen d acc.1 ≤ 2) →
      ∀ d, dayLen d (tds.foldl
        (fun acc td =>
          (tasks td.1).foldl
            (fun acc2 pv => schedulePrep prep_details td.2 pv.1 pv.2 acc2.1 acc2.2) acc)
        acc).1 ≤ 2 := by
    intro tds
    induction tds with
    | nil => intro acc h; exact h
    | cons td rest ih =>
      intro acc h
      rw [List.foldl_cons]
      exact ih _ (inner td.2 (tasks td.1) acc h)
  exact outer task_dates ([], []) (by intro d; simp [dayLen, lookupKey])

/-- Metadata of the capacity counterexample: every preparation is Media with
a 10-day expiration window. -/
def pdCex : PrepDetails := fun _ => ⟨"Media", 10⟩

/-- Requirements of the capacity counterexample: a single task needing two
distinct Media preparations of 500 volume-units each. -/
def tasksCex : String → List Entry :=
  fun t => if t = "T" then [("P1", 500), ("P2", 500)] else []

/-- C1 (counterexample): on a well-formed input — one task starting on a
Wednesday (date 2), requiring the Media preparations `P1` and `P2`, 500 each,
with 10-day windows — the Initial Scheduler places both 500-unit batches on
the same day (the prior Monday, date 0), so the day's same-type volume is
1000 and the claimed `max_volume_per_day` bound fails at that stable state:
`find_available_days` checks only the entry count and the type, never the
volume already on the day. -/
theorem initial_scheduler_volume_counterexample :
    lookupKey 0 (optimize_schedule [("T", 2)] tasksCex pdCex).1 =
      some [("P1", 500), ("P2", 500)] ∧
    sameTypeVolume pdCex "Media"
        ((lookupKey 0 (optimize_schedule [("T", 2)] tasksCex pdCex).1).getD []) = 1000 ∧
    ¬ (sameTypeVolume pdCex "Media"
        ((lookupKey 0 (optimize_schedule [("T", 2)] tasksCex pdCex).1).getD []) ≤ 500) := by
  refine ⟨by decide, by decide, by decide⟩

/-- C1 (amended): the day-count half of the invariant holds at every stable
state: the Initial Scheduler's output has at most 2 entries per day, and the
output of each consolidation pass satisfies both the `max_preps_per_day`
bound and the per-type `max_volume_per_day` bound (500).  The same-type
volume bound does NOT hold at the Initial Scheduler's stable state (see the
counterexample); it is restored by the consolidation passes. -/
theorem capacity_invariants (prep_details : PrepDetails) :
    (∀ (task_dates : List (String × Int)) (tasks : String → List Entry) (d : Int),
      dayLen d (optimize_schedule task_dates tasks prep_details).1 ≤ 2) ∧
    (∀ s : Schedule,
      schedOk prep_details 2 500 (consolidate_preps s prep_details 2 500)) ∧
    (∀ s : Schedule,
      schedOk prep_details 2 500
        (consolidate_preps_with_constraints s prep_details 2 500)) :=
  ⟨fun task_dates tasks d => optimize_dayLen task_dates tasks prep_details d,
   fun s => consolidate_preps_schedOk s prep_details 2 500,
   fun s => consolidate_preps_with_constraints_schedOk s prep_details 2 500⟩

theorem capacity_invariants_witness :
    dayLen 0 (optimize_schedule [("T", 2)] tasksCex pdCex).1 ≤ 2 :=
  (capacity_invariants pdCex).1 [("T", 2)] tasksCex 0

/-! ### Pass B placement policy: claim C5 -/

/-- C5: one iteration of the Pass B placement loop.  When the entire
remaining volume fits on the day under consideration (fewer than `maxP`
entries, and the same-type volume plus the remainder at most `maxV`), the
whole remainder is placed there as a single entry and placement stops
(the loop returns).  Otherwise only what fits is placed — `min(maxV −
same-type volume, remainder)`, and nothing at all when the day-count limit
is reached or no volume fits — and placement advances one calendar day. -/
theorem loopB_step (prep_details : PrepDetails) (maxP maxV : Nat) (prep tp : String)
    (fuel vr : Nat) (day : Int) (sched : Schedule) (hvr : 0 < vr) :
    let sched1 := if (lookupKey day sched).isNone then setKey day [] sched else sched
    let entries := (lookupKey day sched1).getD []
    let current_volume := sameTypeVolume prep_details tp entries
    let fits := min (maxV - current_volume) vr
    let placed := if 0 < fits ∧ entries.length < maxP then fits else 0
    (entries.length < maxP ∧ current_volume + vr ≤ maxV →
      loopB prep_details maxP maxV prep tp (fuel + 1) vr day sched =
        some (setKey day (entries ++ [(prep, vr)]) sched1)) ∧
    (¬ (entries.length < maxP ∧ current_volume + vr ≤ maxV) →
      loopB prep_details maxP maxV prep tp (fuel + 1) vr day sched =
        loopB prep_details maxP maxV prep tp fuel (vr - placed) (day + 1)
          (if 0 < fits ∧ entries.length < maxP
           then setKey day (entries ++ [(prep, fits)]) sched1
           else sched1)) := by
  obtain ⟨v, rfl⟩ : ∃ v, vr = v + 1 := ⟨vr - 1, by omega⟩
  dsimp only
  constructor
  · intro hg
    simp only [loopB]
    rw [if_pos hg]
  · intro hg
    simp only [loopB]
    rw [if_neg hg]
    by_cases hc : 0 < min (maxV - sameTypeVolume prep_details tp
        ((lookupKey day (if (lookupKey day sched).isNone
          then setKey day [] sched else sched)).getD [])) (v + 1) ∧
        ((lookupKey day (if (lookupKey day sched).isNone
          then setKey day [] sched else sched)).getD []).length < maxP
    · rw [if_pos hc, if_pos hc, if_pos hc]
    · rw [if_neg hc, if_neg hc, if_neg hc]
      simp only [Nat.sub_zero]

theorem loopB_step_witness :
    loopB pdCex 2 500 "P" "Media" 6 100 0 [] = some [(0, [("P", 100)])] := by
  have h := (loopB_step pdCex 2 500 "P" "Media" 5 100 0 [] (by decide)).1 (by decide)
  exact h.trans (by decide)

end BiologicTracker
